import Mathlib

/-!
# librpimemmgr: the allocation registry and the memory manager

A shallow embedding of `src/rpimemmgr.c`.

* Pointers (`void *usraddr`) are natural numbers, `NULL` is `0`.
* `size_t` and `uint32_t` values are only stored and passed on, never computed
  with, so they are natural numbers.
* `int` results and file descriptors are integers; an unset descriptor is `-1`.
* The manager handle `sp` is an `Option`: `none` is the `NULL` pointer and
  `some priv` a handle whose `priv` points at the private state `priv`.
* The two allocation back ends, the resource open/close calls and the local
  allocator are outside this file of the library.  What they answer during one
  public call is given by a `Backend` value, and every call made to them is
  recorded, in order, in a list of `Call`s.
* The `tsearch`/`tfind`/`tdelete` family belongs to the C library.  It is
  modelled as a binary search tree driven by the comparison function, without
  rebalancing.
-/

namespace Rpimemmgr

/-! ## Data model -/

/-- Tag `MEM_TYPE_VCSM = 1<<0` of `enum mem_elem_type`. -/
def MEM_TYPE_VCSM : Nat := 1 <<< 0

/-- Tag `MEM_TYPE_MAILBOX = 1<<1` of `enum mem_elem_type`. -/
def MEM_TYPE_MAILBOX : Nat := 1 <<< 1

/-- Record `struct mem_elem`: one registered allocation. -/
structure mem_elem where
  type : Nat
  size : Nat
  handle : Nat
  busaddr : Nat
  usraddr : Nat
  deriving DecidableEq, Repr

/-- Tree node of the C library search tree: a stored record and two subtrees. -/
inductive node where
  | nil : node
  | mk (left : node) (key : mem_elem) (right : node) : node
  deriving DecidableEq, Repr

/-- Private state `struct rpimemmgr_priv`. -/
structure rpimemmgr_priv where
  is_vcsm_inited : Bool
  fd_mb : Int
  fd_mem : Int
  root : node
  deriving DecidableEq, Repr

/-- Output of a back end allocate primitive: the `int` result and the three
values written through `handlep`, `busaddrp` and `usraddrp`. -/
structure AllocOut where
  err : Int
  handle : Nat
  busaddr : Nat
  usraddr : Nat
  deriving DecidableEq, Repr

/-- Answers of the collaborators during one public call. -/
structure Backend where
  /-- result of `vcsm_init()` -/
  vcsm_init : Int
  /-- result of `alloc_mem_vcsm(size, align, cache_type, ...)` -/
  alloc_mem_vcsm : Nat → Nat → Nat → AllocOut
  /-- result of `free_mem_vcsm(handle, usraddr)` -/
  free_mem_vcsm : Nat → Nat → Int
  /-- result of `mailbox_open()` -/
  mailbox_open : Int
  /-- result of `mailbox_close(fd)` -/
  mailbox_close : Int → Int
  /-- result of `open("/dev/mem", O_RDWR | O_SYNC)` -/
  open_dev_mem : Int
  /-- result of `close(fd)` -/
  close : Int → Int
  /-- result of `alloc_mem_mailbox(fd_mb, fd_mem, size, align, flags, ...)` -/
  alloc_mem_mailbox : Int → Int → Nat → Nat → Nat → AllocOut
  /-- result of `free_mem_mailbox(fd_mb, size, handle, busaddr, usraddr)` -/
  free_mem_mailbox : Int → Nat → Nat → Nat → Nat → Int
  /-- whether `malloc` returns a non-null pointer -/
  malloc : Bool
  /-- whether `tsearch` can allocate the node it needs for an insertion -/
  tsearch_node : Bool

/-- Calls made to the collaborators, with their arguments. -/
inductive Call where
  | vcsm_init : Call
  | vcsm_exit : Call
  | alloc_mem_vcsm (size align cache_type : Nat) : Call
  | free_mem_vcsm (handle usraddr : Nat) : Call
  | mailbox_open : Call
  | mailbox_close (fd : Int) : Call
  | open_dev_mem : Call
  | close (fd : Int) : Call
  | alloc_mem_mailbox (fd_mb fd_mem : Int) (size align flags : Nat) : Call
  | free_mem_mailbox (fd_mb : Int) (size handle busaddr usraddr : Nat) : Call
  deriving DecidableEq, Repr

/-- Result of a public call: either the call dereferenced a null handle
(`fault`, undefined behaviour in C), or it returned `ret`, left the handle in
state `sp` and made the collaborator calls `calls`, oldest first. -/
inductive Outcome (α : Type) where
  | fault : Outcome α
  | done (ret : α) (sp : Option rpimemmgr_priv) (calls : List Call) : Outcome α
  deriving DecidableEq, Repr

/-- Handle state after a call; a faulting call leaves no usable handle. -/
def Outcome.sp_after {α : Type} : Outcome α → Option rpimemmgr_priv
  | .fault => none
  | .done _ sp _ => sp

/-- Collaborator calls made by a call. -/
def Outcome.calls_made {α : Type} : Outcome α → List Call
  | .fault => []
  | .done _ _ calls => calls

/-- Returned value of a call, when it returned. -/
def Outcome.returned {α : Type} : Outcome α → Option α
  | .fault => none
  | .done ret _ _ => some ret

/-! ## The search tree of the C library -/

/-- Comparison function `mem_elem_compar`: orders records by `usraddr`. -/
def mem_elem_compar (na nb : mem_elem) : Int :=
  if na.usraddr < nb.usraddr then -1
  else if na.usraddr > nb.usraddr then 1
  else 0

/-- Records of a tree, in order. -/
def node.toList : node → List mem_elem
  | .nil => []
  | .mk l k r => l.toList ++ k :: r.toList

/-- User addresses of the records of a tree, in order. -/
def node.keys (t : node) : List Nat := t.toList.map mem_elem.usraddr

/-- Number of nodes of a tree. -/
def node.size : node → Nat
  | .nil => 0
  | .mk l _ r => l.size + 1 + r.size

/-- Library call `tfind(key, &root, compar)`: the record of the node that
compares equal to `key`, or `none` for a `NULL` result. -/
def tfind (key : mem_elem) : node → Option mem_elem
  | .nil => none
  | .mk l k r =>
    let c := mem_elem_compar key k
    if c = 0 then some k
    else if c < 0 then tfind key l
    else tfind key r

/-- What `tsearch` hands back: `null` (no memory for a node), `found k` (a
node comparing equal already exists and holds `k`; the tree is untouched), or
`inserted root` (a node holding the key was added, giving tree `root`). -/
inductive tsearch_result where
  | null : tsearch_result
  | found (k : mem_elem) : tsearch_result
  | inserted (root : node) : tsearch_result
  deriving DecidableEq, Repr

/-- Library call `tsearch(key, &root, compar)`; `node_ok` tells whether a new
node can be allocated. -/
def tsearch (key : mem_elem) (node_ok : Bool) : node → tsearch_result
  | .nil => if node_ok then .inserted (.mk .nil key .nil) else .null
  | .mk l k r =>
    let c := mem_elem_compar key k
    if c = 0 then .found k
    else if c < 0 then
      match tsearch key node_ok l with
      | .inserted l1 => .inserted (.mk l1 k r)
      | other => other
    else
      match tsearch key node_ok r with
      | .inserted r1 => .inserted (.mk l k r1)
      | other => other

/-- Detach the leftmost node of the non-empty tree `mk l k r`: its record and
the remaining tree. -/
def unlink_min : node → mem_elem → node → mem_elem × node
  | .nil, k, r => (k, r)
  | .mk ll lk lr, k, r =>
    let m := unlink_min ll lk lr
    (m.1, .mk m.2 k r)

/-- Join the two subtrees of an unlinked node. -/
def unlink_root : node → node → node
  | .nil, r => r
  | l, .nil => l
  | l, .mk rl rk rr =>
    let m := unlink_min rl rk rr
    .mk l m.1 m.2

/-- Library call `tdelete(key, &root, compar)`: `none` for a `NULL` result
(no node compares equal), otherwise the tree without that node. -/
def tdelete (key : mem_elem) : node → Option node
  | .nil => none
  | .mk l k r =>
    let c := mem_elem_compar key k
    if c = 0 then some (unlink_root l r)
    else if c < 0 then (tdelete key l).map (fun l1 => .mk l1 k r)
    else (tdelete key r).map (fun r1 => .mk l k r1)

/-! ## The manager -/

/-- Static function `free_elem(ep, sp)`: unlink the record from the registry,
then release it through the back end named by its tag. -/
def free_elem (ep : mem_elem) (priv : rpimemmgr_priv) (be : Backend) :
    Int × rpimemmgr_priv × List Call :=
  match tdelete ep priv.root with
  | none => (1, priv, [])
  | some root1 =>
    let priv1 := { priv with root := root1 }
    if ep.type = MEM_TYPE_VCSM then
      (be.free_mem_vcsm ep.handle ep.usraddr, priv1,
        [Call.free_mem_vcsm ep.handle ep.usraddr])
    else if ep.type = MEM_TYPE_MAILBOX then
      (be.free_mem_mailbox priv1.fd_mb ep.size ep.handle ep.busaddr ep.usraddr, priv1,
        [Call.free_mem_mailbox priv1.fd_mb ep.size ep.handle ep.busaddr ep.usraddr])
    else
      (1, priv1, [])

/-- Loop of `free_all_elems`, with `err_sum` threaded through; the first
argument bounds the number of iterations. -/
def free_all_elems_loop : Nat → Int → rpimemmgr_priv → Backend →
    Int × rpimemmgr_priv × List Call
  | 0, err_sum, priv, _ => (err_sum, priv, [])
  | fuel + 1, err_sum, priv, be =>
    match priv.root with
    | .nil => (err_sum, priv, [])
    | .mk _ k _ =>
      let r := free_elem k priv be
      let err_sum1 := if r.1 ≠ 0 then r.1 else err_sum
      let rest := free_all_elems_loop fuel err_sum1 r.2.1 be
      (rest.1, rest.2.1, r.2.2 ++ rest.2.2)

/-- Static function `free_all_elems(sp)`: free the record at the root until the
tree is empty.  Every iteration unlinks one node, so as many iterations as the
tree has nodes are enough (`free_all_elems_root` below). -/
def free_all_elems (priv : rpimemmgr_priv) (be : Backend) :
    Int × rpimemmgr_priv × List Call :=
  free_all_elems_loop priv.root.size 0 priv be

/-- Static function `register_mem(type, size, handle, busaddr, usraddr, sp)`. -/
def register_mem (type size handle busaddr usraddr : Nat) (priv : rpimemmgr_priv)
    (be : Backend) : Int × rpimemmgr_priv :=
  if be.malloc = false then (1, priv)
  else
    let ep : mem_elem := ⟨type, size, handle, busaddr, usraddr⟩
    match tsearch ep be.tsearch_node priv.root with
    | .null => (1, priv)
    | .found _ => (1, priv)
    | .inserted root1 => (0, { priv with root := root1 })

/-- Public function `rpimemmgr_init(sp)`; `sp_null` tells whether `sp` is
`NULL`. -/
def rpimemmgr_init (sp_null : Bool) (be : Backend) : Outcome Int :=
  if sp_null then .done 1 none []
  else if be.malloc = false then .done 1 none []
  else .done 0 (some ⟨false, -1, -1, .nil⟩) []

/-- Public function `rpimemmgr_finalize(sp)`.  The state reported is the
private state as it stands when `free(sp->priv)` releases it. -/
def rpimemmgr_finalize (sp : Option rpimemmgr_priv) (be : Backend) : Outcome Int :=
  match sp with
  | none => .done 1 none []
  | some priv =>
    let swept := free_all_elems priv be
    let priv1 := swept.2.1
    let err_sum0 : Int := if swept.1 ≠ 0 then swept.1 else 0
    let calls1 := if priv1.is_vcsm_inited then [Call.vcsm_exit] else []
    let err_mb := be.mailbox_close priv1.fd_mb
    let err_sum1 := if priv1.fd_mb ≠ -1 then (if err_mb ≠ 0 then err_mb else err_sum0)
      else err_sum0
    let calls2 := if priv1.fd_mb ≠ -1 then [Call.mailbox_close priv1.fd_mb] else []
    let err_mem := be.close priv1.fd_mem
    let err_sum2 := if priv1.fd_mem ≠ -1 then (if err_mem ≠ 0 then err_mem else err_sum1)
      else err_sum1
    let calls3 := if priv1.fd_mem ≠ -1 then [Call.close priv1.fd_mem] else []
    .done err_sum2 (some priv1) (swept.2.2 ++ calls1 ++ calls2 ++ calls3)

/-- Public function `rpimemmgr_alloc_vcsm(size, align, cache_type, busaddrp, sp)`.
The result is the returned pointer together with the value stored through
`busaddrp` (`busaddrp = true` meaning a non-null `busaddrp`). -/
def rpimemmgr_alloc_vcsm (size align cache_type : Nat) (busaddrp : Bool)
    (sp : Option rpimemmgr_priv) (be : Backend) : Outcome (Nat × Option Nat) :=
  match sp with
  | none => .done (0, none) none []
  | some priv =>
    let calls0 := if priv.is_vcsm_inited = false then [Call.vcsm_init] else []
    if priv.is_vcsm_inited = false ∧ be.vcsm_init ≠ 0 then
      .done (0, none) (some priv) calls0
    else
      let a := be.alloc_mem_vcsm size align cache_type
      let calls1 := calls0 ++ [Call.alloc_mem_vcsm size align cache_type]
      if a.err ≠ 0 then .done (0, none) (some priv) calls1
      else
        let reg := register_mem MEM_TYPE_VCSM size a.handle a.busaddr a.usraddr priv be
        if reg.1 ≠ 0 then
          .done (0, none) (some reg.2) (calls1 ++ [Call.free_mem_vcsm a.handle a.usraddr])
        else
          .done (a.usraddr, if busaddrp then some a.busaddr else none) (some reg.2) calls1

/-- Public function `rpimemmgr_alloc_mailbox(size, align, flags, busaddrp, sp)`.
The result is the returned pointer together with the value stored through
`busaddrp`. -/
def rpimemmgr_alloc_mailbox (size align flags : Nat) (busaddrp : Bool)
    (sp : Option rpimemmgr_priv) (be : Backend) : Outcome (Nat × Option Nat) :=
  match sp with
  | none => .done (0, none) none []
  | some priv =>
    let calls0 := if priv.fd_mb = -1 then [Call.mailbox_open] else []
    if priv.fd_mb = -1 ∧ be.mailbox_open = -1 then
      .done (0, none) (some priv) calls0
    else
      let priv1 := if priv.fd_mb = -1 then { priv with fd_mb := be.mailbox_open } else priv
      let calls1 := calls0 ++ (if priv1.fd_mem = -1 then [Call.open_dev_mem] else [])
      if priv1.fd_mem = -1 ∧ be.open_dev_mem = -1 then
        -- clean_mb
        .done (0, none) (some { priv1 with fd_mb := -1 })
          (calls1 ++ [Call.mailbox_close priv1.fd_mb])
      else
        let priv2 := if priv1.fd_mem = -1 then { priv1 with fd_mem := be.open_dev_mem }
          else priv1
        let a := be.alloc_mem_mailbox priv2.fd_mb priv2.fd_mem size align flags
        let calls2 := calls1 ++ [Call.alloc_mem_mailbox priv2.fd_mb priv2.fd_mem size align flags]
        if a.err ≠ 0 then
          -- clean_mem, clean_mb
          .done (0, none) (some { priv2 with fd_mem := -1, fd_mb := -1 })
            (calls2 ++ [Call.close priv2.fd_mem, Call.mailbox_close priv2.fd_mb])
        else
          let reg := register_mem MEM_TYPE_MAILBOX size a.handle a.busaddr a.usraddr priv2 be
          if reg.1 ≠ 0 then
            -- clean_alloc, clean_mem, clean_mb
            .done (0, none) (some { reg.2 with fd_mem := -1, fd_mb := -1 })
              (calls2 ++ [Call.free_mem_mailbox reg.2.fd_mb size a.handle a.busaddr a.usraddr,
                Call.close reg.2.fd_mem, Call.mailbox_close reg.2.fd_mb])
          else
            .done (a.usraddr, if busaddrp then some a.busaddr else none) (some reg.2) calls2

/-- Public function `rpimemmgr_free(usraddr, sp)`.  There is no `sp == NULL`
guard: a null handle is dereferenced. -/
def rpimemmgr_free (usraddr : Nat) (sp : Option rpimemmgr_priv) (be : Backend) :
    Outcome Int :=
  match sp with
  | none => .fault
  | some priv =>
    match tfind ⟨0, 0, 0, 0, usraddr⟩ priv.root with
    | none => .done 1 (some priv) []
    | some ep =>
      let r := free_elem ep priv be
      .done r.1 (some r.2.1) r.2.2

/-! ## Properties used to state the results -/

/-- Search-tree order: the user addresses read in order are strictly
increasing. -/
def Ordered (t : node) : Prop := t.keys.Pairwise (fun a b => a < b)

instance (t : node) : Decidable (Ordered t) := by
  unfold Ordered; infer_instance

/-- Every record of the tree carries one of the two back end tags. -/
def TagsValid (t : node) : Prop :=
  ∀ e ∈ t.toList, e.type = MEM_TYPE_VCSM ∨ e.type = MEM_TYPE_MAILBOX

instance (t : node) : Decidable (TagsValid t) := by
  unfold TagsValid; infer_instance

/-- Contract of the allocate primitives: an allocation reported as successful
comes with a non-null user address. -/
def Backend.addr_nonnull (be : Backend) : Prop :=
  (∀ size align c, (be.alloc_mem_vcsm size align c).err = 0 →
    (be.alloc_mem_vcsm size align c).usraddr ≠ 0) ∧
  (∀ fd_mb fd_mem size align flags,
    (be.alloc_mem_mailbox fd_mb fd_mem size align flags).err = 0 →
    (be.alloc_mem_mailbox fd_mb fd_mem size align flags).usraddr ≠ 0)

/-- State of the handle once `rpimemmgr_alloc_mailbox` has opened, with
success, whichever of the two resources was unset. -/
def lazily_opened (priv : rpimemmgr_priv) (be : Backend) : rpimemmgr_priv :=
  { priv with
    fd_mb := if priv.fd_mb = -1 then be.mailbox_open else priv.fd_mb
    fd_mem := if priv.fd_mem = -1 then be.open_dev_mem else priv.fd_mem }

/-- Answer of the collaborators to the release of the record `ep` by the back
end its tag names, the mailbox release being given the control handle `fd_mb`. -/
def release_result (be : Backend) (fd_mb : Int) (ep : mem_elem) : Int :=
  if ep.type = MEM_TYPE_VCSM then be.free_mem_vcsm ep.handle ep.usraddr
  else be.free_mem_mailbox fd_mb ep.size ep.handle ep.busaddr ep.usraddr

/-- The two allocation strategies. -/
inductive Strategy where
  | vcsm : Strategy
  | mailbox : Strategy
  deriving DecidableEq, Repr

/-- The alloc operation of a strategy; the third number is `cache_type` for
the shared strategy and `flags` for the mailbox strategy. -/
def alloc_by : Strategy → Nat → Nat → Nat → Bool → Option rpimemmgr_priv → Backend →
    Outcome (Nat × Option Nat)
  | .vcsm => rpimemmgr_alloc_vcsm
  | .mailbox => rpimemmgr_alloc_mailbox

/-- One call of the alloc/free interface, as the caller writes it. -/
inductive Op where
  | alloc (s : Strategy) (size align opt : Nat) (busaddrp : Bool) : Op
  | free (usraddr : Nat) : Op
  deriving DecidableEq, Repr

/-- Handle state after running one call. -/
def Op.next (op : Op) (sp : Option rpimemmgr_priv) (be : Backend) : Option rpimemmgr_priv :=
  match op with
  | .alloc s size align opt b => (alloc_by s size align opt b sp be).sp_after
  | .free usraddr => (rpimemmgr_free usraddr sp be).sp_after

/-- Book-keeping of a caller who sees only arguments and returned values:
an alloc that returns a non-null address adds it to the live addresses, a
free removes the address it is given. -/
def Op.track (op : Op) (sp : Option rpimemmgr_priv) (be : Backend) (live : List Nat) :
    List Nat :=
  match op with
  | .alloc s size align opt b =>
    match (alloc_by s size align opt b sp be).returned with
    | some ret => if ret.1 ≠ 0 then ret.1 :: live else live
    | none => live
  | .free usraddr => live.filter (fun a => a ≠ usraddr)

/-- Run a sequence of calls, each with the collaborator answers it meets,
threading the handle state and the caller's live addresses. -/
def run : List (Op × Backend) → Option rpimemmgr_priv × List Nat →
    Option rpimemmgr_priv × List Nat
  | [], st => st
  | step :: rest, st => run rest (step.1.next st.1 step.2, step.1.track st.1 step.2 st.2)

/-- Tag that `register_mem` is given by the alloc operation of a strategy. -/
def Strategy.tag : Strategy → Nat
  | .vcsm => MEM_TYPE_VCSM
  | .mailbox => MEM_TYPE_MAILBOX

/-- Release call of the record `ep` by the back end its tag names, the mailbox
release being given the control handle `fd_mb`. -/
def release_call (fd_mb : Int) (ep : mem_elem) : Call :=
  if ep.type = MEM_TYPE_VCSM then .free_mem_vcsm ep.handle ep.usraddr
  else .free_mem_mailbox fd_mb ep.size ep.handle ep.busaddr ep.usraddr

/-- Whether a collaborator call is a back end release. -/
def Call.is_release : Call → Bool
  | .free_mem_vcsm _ _ => true
  | .free_mem_mailbox _ _ _ _ _ => true
  | _ => false

/-- Output of the backend allocate that the alloc operation of a strategy
calls on state `priv`, once it gets that far. -/
def backend_alloc (s : Strategy) (size align opt : Nat) (priv : rpimemmgr_priv)
    (be : Backend) : AllocOut :=
  match s with
  | .vcsm => be.alloc_mem_vcsm size align opt
  | .mailbox =>
    be.alloc_mem_mailbox (lazily_opened priv be).fd_mb (lazily_opened priv be).fd_mem
      size align opt

/-- The steps before the backend allocate succeed: the subsystem
initialisation for the shared strategy, the opening of each unset resource
for the mailbox strategy. -/
def reaches_alloc (s : Strategy) (priv : rpimemmgr_priv) (be : Backend) : Prop :=
  match s with
  | .vcsm => priv.is_vcsm_inited = false → be.vcsm_init = 0
  | .mailbox =>
    (priv.fd_mb = -1 → be.mailbox_open ≠ -1) ∧ (priv.fd_mem = -1 → be.open_dev_mem ≠ -1)

instance (s : Strategy) (priv : rpimemmgr_priv) (be : Backend) :
    Decidable (reaches_alloc s priv be) := by
  cases s <;> unfold reaches_alloc <;> infer_instance

/-- The alloc operation of a strategy, called on state `priv`, fails at one of
its failure points: the subsystem initialisation (shared strategy) or the
opening of the control or of the mapping resource (mailbox strategy), the
backend allocate, or the registration by `register_mem`. -/
def alloc_fails (s : Strategy) (size align opt : Nat) (priv : rpimemmgr_priv)
    (be : Backend) : Prop :=
  match s with
  | .vcsm =>
    (priv.is_vcsm_inited = false ∧ be.vcsm_init ≠ 0) ∨
    (be.alloc_mem_vcsm size align opt).err ≠ 0 ∨
    (register_mem MEM_TYPE_VCSM size (be.alloc_mem_vcsm size align opt).handle
      (be.alloc_mem_vcsm size align opt).busaddr
      (be.alloc_mem_vcsm size align opt).usraddr priv be).1 ≠ 0
  | .mailbox =>
    (priv.fd_mb = -1 ∧ be.mailbox_open = -1) ∨
    (priv.fd_mem = -1 ∧ be.open_dev_mem = -1) ∨
    (be.alloc_mem_mailbox (lazily_opened priv be).fd_mb (lazily_opened priv be).fd_mem
      size align opt).err ≠ 0 ∨
    (register_mem MEM_TYPE_MAILBOX size
      (be.alloc_mem_mailbox (lazily_opened priv be).fd_mb (lazily_opened priv be).fd_mem
        size align opt).handle
      (be.alloc_mem_mailbox (lazily_opened priv be).fd_mb (lazily_opened priv be).fd_mem
        size align opt).busaddr
      (be.alloc_mem_mailbox (lazily_opened priv be).fd_mb (lazily_opened priv be).fd_mem
        size align opt).usraddr (lazily_opened priv be) be).1 ≠ 0

instance (s : Strategy) (size align opt : Nat) (priv : rpimemmgr_priv) (be : Backend) :
    Decidable (alloc_fails s size align opt priv be) := by
  cases s <;> unfold alloc_fails <;> infer_instance

/-- Book-keeping of which strategy allocated which address: an alloc that
gets past all its failure points adds the address it returns with its
strategy, a free removes the address it is given. -/
def Op.track_strategy (op : Op) (sp : Option rpimemmgr_priv) (be : Backend)
    (held : List (Nat × Strategy)) : List (Nat × Strategy) :=
  match op with
  | .alloc s size align opt b =>
    match sp with
    | none => held
    | some priv =>
      if alloc_fails s size align opt priv be then held
      else
        match (alloc_by s size align opt b (some priv) be).returned with
        | some ret => (ret.1, s) :: held
        | none => held
  | .free usraddr => held.filter (fun e => e.1 ≠ usraddr)

/-- Run a sequence of calls, threading the handle state and the notes of
allocated addresses with their strategies. -/
def run_strategies : List (Op × Backend) → Option rpimemmgr_priv × List (Nat × Strategy) →
    Option rpimemmgr_priv × List (Nat × Strategy)
  | [], st => st
  | step :: rest, st =>
    run_strategies rest (step.1.next st.1 step.2, step.1.track_strategy st.1 step.2 st.2)

/-- Collaborator calls made by one call of the interface. -/
def Op.calls (op : Op) (sp : Option rpimemmgr_priv) (be : Backend) : List Call :=
  match op with
  | .alloc s size align opt b => (alloc_by s size align opt b sp be).calls_made
  | .free usraddr => (rpimemmgr_free usraddr sp be).calls_made

/-- Collaborator calls made by a sequence of calls, in order. -/
def run_calls : List (Op × Backend) → Option rpimemmgr_priv → List Call
  | [], _ => []
  | step :: rest, sp => step.1.calls sp step.2 ++ run_calls rest (step.1.next sp step.2)

/-! ## Sample collaborators and states -/

/-- Collaborators that succeed at everything: the shared allocate hands back
address 4096, the mailbox allocate address 8192, the opens descriptors 3 and 4. -/
def sample_backend : Backend where
  vcsm_init := 0
  alloc_mem_vcsm := fun _ _ _ => ⟨0, 7, 3221225472, 4096⟩
  free_mem_vcsm := fun _ _ => 0
  mailbox_open := 3
  mailbox_close := fun _ => 0
  open_dev_mem := 4
  close := fun _ => 0
  alloc_mem_mailbox := fun _ _ _ _ _ => ⟨0, 9, 1073741824, 8192⟩
  free_mem_mailbox := fun _ _ _ _ _ => 0
  malloc := true
  tsearch_node := true

/-- Collaborators whose allocate primitives fail; everything else succeeds. -/
def failing_alloc_backend : Backend :=
  { sample_backend with
    alloc_mem_vcsm := fun _ _ _ => ⟨1, 0, 0, 0⟩
    alloc_mem_mailbox := fun _ _ _ _ _ => ⟨1, 0, 0, 0⟩ }

/-- Collaborators whose release primitives fail with result 5; everything
else succeeds. -/
def failing_release_backend : Backend :=
  { sample_backend with
    free_mem_vcsm := fun _ _ => 5
    free_mem_mailbox := fun _ _ _ _ _ => 5 }

/-- Collaborators whose shared release fails with result 5; everything else
succeeds. -/
def failing_vcsm_release_backend : Backend :=
  { sample_backend with free_mem_vcsm := fun _ _ => 5 }

/-- Collaborators like `sample_backend` that hand out other addresses: 12288
for the shared allocate and 16384 for the mailbox allocate. -/
def second_backend : Backend :=
  { sample_backend with
    alloc_mem_vcsm := fun _ _ _ => ⟨0, 8, 3221237760, 12288⟩
    alloc_mem_mailbox := fun _ _ _ _ _ => ⟨0, 10, 1073750016, 16384⟩ }

/-- Collaborators like `sample_backend` whose mailbox allocate hands out the
address 8192 again, with the new handle 11. -/
def second_backend_dup : Backend :=
  { sample_backend with
    alloc_mem_mailbox := fun _ _ _ _ _ => ⟨0, 11, 1073758208, 8192⟩ }

/-- Collaborators for which the open of `/dev/mem` fails; everything else
succeeds. -/
def failing_mapping_backend : Backend :=
  { sample_backend with open_dev_mem := -1 }

/-- Collaborators whose `mailbox_close` fails with result -1; everything else
succeeds. -/
def failing_close_backend : Backend :=
  { sample_backend with mailbox_close := fun _ => -1 }

/-- Collaborators like `sample_backend` whose shared allocate reports success
with the null user address. -/
def null_success_backend : Backend :=
  { sample_backend with alloc_mem_vcsm := fun _ _ _ => ⟨0, 7, 3221225472, 0⟩ }

/-- State left by `rpimemmgr_init`. -/
def fresh : rpimemmgr_priv := ⟨false, -1, -1, .nil⟩

/-- Record registered by a shared allocation against `sample_backend`. -/
def sample_vcsm_elem : mem_elem := ⟨MEM_TYPE_VCSM, 4096, 7, 3221225472, 4096⟩

/-- Record registered by a mailbox allocation against `sample_backend`. -/
def sample_mailbox_elem : mem_elem := ⟨MEM_TYPE_MAILBOX, 64, 9, 1073741824, 8192⟩

/-! ## The search tree: lemmas -/

theorem MEM_TYPE_VCSM_val : MEM_TYPE_VCSM = 1 := rfl

theorem MEM_TYPE_MAILBOX_val : MEM_TYPE_MAILBOX = 2 := rfl

theorem compar_eq_zero (a b : mem_elem) :
    mem_elem_compar a b = 0 ↔ a.usraddr = b.usraddr := by
  unfold mem_elem_compar
  split_ifs with h1 h2
  · simp; omega
  · simp; omega
  · simp; omega

theorem compar_neg (a b : mem_elem) :
    mem_elem_compar a b < 0 ↔ a.usraddr < b.usraddr := by
  unfold mem_elem_compar
  split_ifs with h1 h2
  · simp [h1]
  · simp [h1]
  · simp [h1]

theorem tfind_mk (key : mem_elem) (l : node) (k : mem_elem) (r : node) :
    tfind key (.mk l k r) =
      if key.usraddr = k.usraddr then some k
      else if key.usraddr < k.usraddr then tfind key l else tfind key r := by
  simp only [tfind, compar_eq_zero, compar_neg]

theorem tsearch_mk (key : mem_elem) (ok : Bool) (l : node) (k : mem_elem) (r : node) :
    tsearch key ok (.mk l k r) =
      if key.usraddr = k.usraddr then .found k
      else if key.usraddr < k.usraddr then
        match tsearch key ok l with
        | .inserted l1 => .inserted (.mk l1 k r)
        | other => other
      else
        match tsearch key ok r with
        | .inserted r1 => .inserted (.mk l k r1)
        | other => other := by
  simp only [tsearch, compar_eq_zero, compar_neg]

theorem tdelete_mk (key : mem_elem) (l : node) (k : mem_elem) (r : node) :
    tdelete key (.mk l k r) =
      if key.usraddr = k.usraddr then some (unlink_root l r)
      else if key.usraddr < k.usraddr then (tdelete key l).map (fun l1 => .mk l1 k r)
      else (tdelete key r).map (fun r1 => .mk l k r1) := by
  simp only [tdelete, compar_eq_zero, compar_neg]

theorem keys_mk (l : node) (k : mem_elem) (r : node) :
    (node.mk l k r).keys = l.keys ++ k.usraddr :: r.keys := by
  simp [node.keys, node.toList]

theorem mem_keys_iff (t : node) (a : Nat) :
    a ∈ t.keys ↔ ∃ e ∈ t.toList, e.usraddr = a := by
  simp [node.keys]

theorem ordered_mk (l : node) (k : mem_elem) (r : node) :
    Ordered (.mk l k r) ↔
      Ordered l ∧ Ordered r ∧ (∀ a ∈ l.keys, a < k.usraddr) ∧
        (∀ b ∈ r.keys, k.usraddr < b) := by
  unfold Ordered
  rw [keys_mk, List.pairwise_append, List.pairwise_cons]
  constructor
  · rintro ⟨hl, ⟨hk, hr⟩, hlr⟩
    exact ⟨hl, hr, fun a ha => hlr a ha _ (List.mem_cons_self _ _), hk⟩
  · rintro ⟨hl, hr, hlk, hkr⟩
    refine ⟨hl, ⟨hkr, hr⟩, ?_⟩
    intro a ha b hb
    rcases List.mem_cons.1 hb with rfl | hb
    · exact hlk a ha
    · exact lt_trans (hlk a ha) (hkr b hb)

/-- The result of `tfind` depends on the key's user address only. -/
theorem tfind_congr (k1 k2 : mem_elem) (h : k1.usraddr = k2.usraddr) (t : node) :
    tfind k1 t = tfind k2 t := by
  induction t with
  | nil => rfl
  | mk l k r ihl ihr => simp only [tfind_mk, h, ihl, ihr]

/-- A record handed back by `tfind` is stored in the tree under the key's address. -/
theorem tfind_some_mem (key : mem_elem) (t : node) (e : mem_elem)
    (h : tfind key t = some e) : e ∈ t.toList ∧ e.usraddr = key.usraddr := by
  induction t with
  | nil => simp [tfind] at h
  | mk l k r ihl ihr =>
    rw [tfind_mk] at h
    simp only [node.toList, List.mem_append, List.mem_cons]
    split_ifs at h with h1 h2
    · cases h; exact ⟨Or.inr (Or.inl rfl), h1.symm⟩
    · exact ⟨Or.inl (ihl h).1, (ihl h).2⟩
    · exact ⟨Or.inr (Or.inr (ihr h).1), (ihr h).2⟩

/-- An address that is no key of the tree is not found. -/
theorem tfind_none_of_not_mem (key : mem_elem) (t : node)
    (h : key.usraddr ∉ t.keys) : tfind key t = none := by
  cases hf : tfind key t with
  | none => rfl
  | some e =>
    exfalso
    have := tfind_some_mem key t e hf
    exact h ((mem_keys_iff t _).2 ⟨e, this.1, this.2⟩)

/-- In an ordered tree every stored record is found under its address. -/
theorem tfind_of_mem (key : mem_elem) (t : node) (ho : Ordered t) (e : mem_elem)
    (he : e ∈ t.toList) (hk : e.usraddr = key.usraddr) : tfind key t = some e := by
  induction t with
  | nil => simp [node.toList] at he
  | mk l k r ihl ihr =>
    rw [ordered_mk] at ho
    obtain ⟨hol, hor, hlk, hkr⟩ := ho
    rw [tfind_mk]
    simp only [node.toList, List.mem_append, List.mem_cons] at he
    rcases he with he | rfl | he
    · have h1 : e.usraddr < k.usraddr := hlk _ ((mem_keys_iff l _).2 ⟨e, he, rfl⟩)
      have h2 : ¬ key.usraddr = k.usraddr := by omega
      have h3 : key.usraddr < k.usraddr := by omega
      simp only [h2, h3, if_true, if_false]
      exact ihl hol he
    · simp [hk]
    · have h1 : k.usraddr < e.usraddr := hkr _ ((mem_keys_iff r _).2 ⟨e, he, rfl⟩)
      have h2 : ¬ key.usraddr = k.usraddr := by omega
      have h3 : ¬ key.usraddr < k.usraddr := by omega
      simp only [h2, h3, if_false]
      exact ihr hor he

/-- In an ordered tree, `tfind` misses exactly the addresses that are no key. -/
theorem tfind_eq_none_iff (key : mem_elem) (t : node) (ho : Ordered t) :
    tfind key t = none ↔ key.usraddr ∉ t.keys := by
  constructor
  · intro h hm
    obtain ⟨e, he, hk⟩ := (mem_keys_iff t _).1 hm
    rw [tfind_of_mem key t ho e he hk] at h
    cases h
  · exact tfind_none_of_not_mem key t

/-- What an insertion by `tsearch` adds to the tree: exactly the key. -/
theorem tsearch_inserted_toList (key : mem_elem) (ok : Bool) (t t1 : node)
    (h : tsearch key ok t = .inserted t1) (e : mem_elem) :
    e ∈ t1.toList ↔ e = key ∨ e ∈ t.toList := by
  induction t generalizing t1 with
  | nil =>
    cases ok <;> simp [tsearch] at h
    subst h; simp [node.toList]
  | mk l k r ihl ihr =>
    rw [tsearch_mk] at h
    split_ifs at h with h1 h2
    · cases hl : tsearch key ok l with
      | null => simp [hl] at h
      | found _ => simp [hl] at h
      | inserted l1 =>
        simp only [hl, tsearch_result.inserted.injEq] at h
        subst h
        simp only [node.toList, List.mem_append, List.mem_cons, ihl l1 hl]
        tauto
    · cases hr : tsearch key ok r with
      | null => simp [hr] at h
      | found _ => simp [hr] at h
      | inserted r1 =>
        simp only [hr, tsearch_result.inserted.injEq] at h
        subst h
        simp only [node.toList, List.mem_append, List.mem_cons, ihr r1 hr]
        tauto

theorem tsearch_inserted_keys (key : mem_elem) (ok : Bool) (t t1 : node)
    (h : tsearch key ok t = .inserted t1) (a : Nat) :
    a ∈ t1.keys ↔ a = key.usraddr ∨ a ∈ t.keys := by
  simp only [mem_keys_iff, tsearch_inserted_toList key ok t t1 h]
  constructor
  · rintro ⟨e, rfl | he, rfl⟩
    · exact Or.inl rfl
    · exact Or.inr ⟨e, he, rfl⟩
  · rintro (rfl | ⟨e, he, rfl⟩)
    · exact ⟨key, Or.inl rfl, rfl⟩
    · exact ⟨e, Or.inr he, rfl⟩

/-- An insertion by `tsearch` keeps the tree ordered. -/
theorem tsearch_inserted_ordered (key : mem_elem) (ok : Bool) (t t1 : node)
    (ho : Ordered t) (h : tsearch key ok t = .inserted t1) : Ordered t1 := by
  induction t generalizing t1 with
  | nil =>
    cases ok <;> simp [tsearch] at h
    subst h; simp [Ordered, node.keys, node.toList]
  | mk l k r ihl ihr =>
    rw [ordered_mk] at ho
    obtain ⟨hol, hor, hlk, hkr⟩ := ho
    rw [tsearch_mk] at h
    split_ifs at h with h1 h2
    · cases hl : tsearch key ok l with
      | null => simp [hl] at h
      | found _ => simp [hl] at h
      | inserted l1 =>
        simp only [hl, tsearch_result.inserted.injEq] at h
        subst h
        rw [ordered_mk]
        refine ⟨ihl l1 hol hl, hor, ?_, hkr⟩
        intro a ha
        rcases (tsearch_inserted_keys key ok l l1 hl a).1 ha with rfl | ha
        · exact h2
        · exact hlk a ha
    · cases hr : tsearch key ok r with
      | null => simp [hr] at h
      | found _ => simp [hr] at h
      | inserted r1 =>
        simp only [hr, tsearch_result.inserted.injEq] at h
        subst h
        rw [ordered_mk]
        refine ⟨hol, ihr r1 hor hr, hlk, ?_⟩
        intro a ha
        rcases (tsearch_inserted_keys key ok r r1 hr a).1 ha with rfl | ha
        · omega
        · exact hkr a ha

/-- Deleting the key that `tsearch` has just inserted gives the tree back. -/
theorem tsearch_inserted_tdelete (key : mem_elem) (ok : Bool) (t t1 : node)
    (h : tsearch key ok t = .inserted t1) : tdelete key t1 = some t := by
  induction t generalizing t1 with
  | nil =>
    cases ok <;> simp [tsearch] at h
    subst h; simp [tdelete_mk, unlink_root]
  | mk l k r ihl ihr =>
    rw [tsearch_mk] at h
    split_ifs at h with h1 h2
    · cases hl : tsearch key ok l with
      | null => simp [hl] at h
      | found _ => simp [hl] at h
      | inserted l1 =>
        simp only [hl, tsearch_result.inserted.injEq] at h
        subst h
        simp [tdelete_mk, h1, h2, ihl l1 hl]
    · cases hr : tsearch key ok r with
      | null => simp [hr] at h
      | found _ => simp [hr] at h
      | inserted r1 =>
        simp only [hr, tsearch_result.inserted.injEq] at h
        subst h
        simp [tdelete_mk, h1, h2, ihr r1 hr]

/-- The key that `tsearch` has just inserted is found under its address. -/
theorem tsearch_inserted_tfind (key : mem_elem) (ok : Bool) (t t1 : node)
    (h : tsearch key ok t = .inserted t1) : tfind key t1 = some key := by
  induction t generalizing t1 with
  | nil =>
    cases ok <;> simp [tsearch] at h
    subst h; simp [tfind_mk]
  | mk l k r ihl ihr =>
    rw [tsearch_mk] at h
    split_ifs at h with h1 h2
    · cases hl : tsearch key ok l with
      | null => simp [hl] at h
      | found _ => simp [hl] at h
      | inserted l1 =>
        simp only [hl, tsearch_result.inserted.injEq] at h
        subst h
        simp [tfind_mk, h1, h2, ihl l1 hl]
    · cases hr : tsearch key ok r with
      | null => simp [hr] at h
      | found _ => simp [hr] at h
      | inserted r1 =>
        simp only [hr, tsearch_result.inserted.injEq] at h
        subst h
        simp [tfind_mk, h1, h2, ihr r1 hr]

/-- The answer of `tsearch` read off `tfind`: an equal node is handed back,
otherwise a node is inserted when one can be allocated. -/
theorem tsearch_found_iff (key : mem_elem) (ok : Bool) (t : node) (k : mem_elem) :
    tsearch key ok t = .found k ↔ tfind key t = some k := by
  induction t with
  | nil => cases ok <;> simp [tsearch, tfind]
  | mk l k0 r ihl ihr =>
    rw [tsearch_mk, tfind_mk]
    split_ifs with h1 h2
    · simp
    · rw [← ihl]
      cases hl : tsearch key ok l <;> simp
    · rw [← ihr]
      cases hr : tsearch key ok r <;> simp

theorem unlink_min_toList (l : node) (k : mem_elem) (r : node) :
    (unlink_min l k r).1 :: (unlink_min l k r).2.toList = (node.mk l k r).toList := by
  induction l generalizing k r with
  | nil => simp [unlink_min, node.toList]
  | mk ll lk lr ihl _ =>
    have := ihl lk lr
    simp only [unlink_min, node.toList] at this ⊢
    rw [← List.cons_append, this]

/-- Unlinking the root keeps every other record, in order. -/
theorem unlink_root_toList (l r : node) :
    (unlink_root l r).toList = l.toList ++ r.toList := by
  cases l with
  | nil => simp [unlink_root, node.toList]
  | mk ll lk lr =>
    cases r with
    | nil => simp [unlink_root, node.toList]
    | mk rl rk rr =>
      have := unlink_min_toList rl rk rr
      simp only [unlink_root, node.toList] at this ⊢
      rw [this]

theorem unlink_min_size (l : node) (k : mem_elem) (r : node) :
    (unlink_min l k r).2.size + 1 = (node.mk l k r).size := by
  induction l generalizing k r with
  | nil => simp only [unlink_min, node.size]; omega
  | mk ll lk lr ihl _ =>
    have := ihl lk lr
    simp only [unlink_min, node.size] at this ⊢
    omega

theorem unlink_root_size (l r : node) :
    (unlink_root l r).size = l.size + r.size := by
  cases l with
  | nil => simp [unlink_root, node.size]
  | mk ll lk lr =>
    cases r with
    | nil => simp [unlink_root, node.size]
    | mk rl rk rr =>
      have := unlink_min_size rl rk rr
      simp only [unlink_root, node.size] at this ⊢
      omega

/-- Function `tdelete` finds a node exactly when `tfind` does. -/
theorem tdelete_isSome (key : mem_elem) (t : node) :
    (tdelete key t).isSome = (tfind key t).isSome := by
  induction t with
  | nil => rfl
  | mk l k r ihl ihr =>
    rw [tdelete_mk, tfind_mk]
    split_ifs with h1 h2
    · rfl
    · simpa using ihl
    · simpa using ihr

theorem tdelete_congr (k1 k2 : mem_elem) (h : k1.usraddr = k2.usraddr) (t : node) :
    tdelete k1 t = tdelete k2 t := by
  induction t with
  | nil => rfl
  | mk l k r ihl ihr => simp only [tdelete_mk, h, ihl, ihr]

/-- A successful `tdelete` unlinks exactly one node. -/
theorem tdelete_size (key : mem_elem) (t t1 : node) (h : tdelete key t = some t1) :
    t1.size + 1 = t.size := by
  induction t generalizing t1 with
  | nil => simp [tdelete] at h
  | mk l k r ihl ihr =>
    rw [tdelete_mk] at h
    split_ifs at h with h1 h2
    · cases h; simp [unlink_root_size, node.size]; omega
    · cases hl : tdelete key l with
      | none => simp [hl] at h
      | some l1 =>
        simp only [hl, Option.map_some', Option.some.injEq] at h
        subst h
        have := ihl l1 hl
        simp only [node.size]; omega
    · cases hr : tdelete key r with
      | none => simp [hr] at h
      | some r1 =>
        simp only [hr, Option.map_some', Option.some.injEq] at h
        subst h
        have := ihr r1 hr
        simp only [node.size]; omega

/-- In an ordered tree `tdelete` removes the records stored under the key's
address and nothing else. -/
theorem tdelete_toList (key : mem_elem) (t t1 : node) (ho : Ordered t)
    (h : tdelete key t = some t1) :
    t1.toList = t.toList.filter (fun e => e.usraddr ≠ key.usraddr) := by
  induction t generalizing t1 with
  | nil => simp [tdelete] at h
  | mk l k r ihl ihr =>
    rw [ordered_mk] at ho
    obtain ⟨hol, hor, hlk, hkr⟩ := ho
    have hl_lt : ∀ e ∈ l.toList, e.usraddr < k.usraddr :=
      fun e he => hlk _ ((mem_keys_iff l _).2 ⟨e, he, rfl⟩)
    have hr_gt : ∀ e ∈ r.toList, k.usraddr < e.usraddr :=
      fun e he => hkr _ ((mem_keys_iff r _).2 ⟨e, he, rfl⟩)
    rw [tdelete_mk] at h
    simp only [node.toList, List.filter_append, List.filter_cons]
    split_ifs at h with h1 h2
    · cases h
      rw [unlink_root_toList]
      have e1 : l.toList.filter (fun e => e.usraddr ≠ key.usraddr) = l.toList := by
        rw [List.filter_eq_self]
        intro e he; have := hl_lt e he; simp; omega
      have e2 : r.toList.filter (fun e => e.usraddr ≠ key.usraddr) = r.toList := by
        rw [List.filter_eq_self]
        intro e he; have := hr_gt e he; simp; omega
      rw [e1, e2]
      simp [h1]
    · cases hl : tdelete key l with
      | none => simp [hl] at h
      | some l1 =>
        simp only [hl, Option.map_some', Option.some.injEq] at h
        subst h
        have e2 : r.toList.filter (fun e => e.usraddr ≠ key.usraddr) = r.toList := by
          rw [List.filter_eq_self]
          intro e he; have := hr_gt e he; simp; omega
        have hk : k.usraddr ≠ key.usraddr := fun hh => h1 hh.symm
        simp only [node.toList, ihl l1 hol hl, e2]
        simp [hk]
    · cases hr : tdelete key r with
      | none => simp [hr] at h
      | some r1 =>
        simp only [hr, Option.map_some', Option.some.injEq] at h
        subst h
        have e1 : l.toList.filter (fun e => e.usraddr ≠ key.usraddr) = l.toList := by
          rw [List.filter_eq_self]
          intro e he; have := hl_lt e he; simp; omega
        have hk : k.usraddr ≠ key.usraddr := fun hh => h1 hh.symm
        simp only [node.toList, ihr r1 hor hr, e1]
        simp [hk]

theorem tdelete_ordered (key : mem_elem) (t t1 : node) (ho : Ordered t)
    (h : tdelete key t = some t1) : Ordered t1 := by
  unfold Ordered node.keys at *
  rw [tdelete_toList key t t1 ho h]
  exact List.Pairwise.sublist (List.Sublist.map _ (List.filter_sublist _)) ho

theorem tdelete_keys (key : mem_elem) (t t1 : node) (ho : Ordered t)
    (h : tdelete key t = some t1) (a : Nat) :
    a ∈ t1.keys ↔ a ∈ t.keys ∧ a ≠ key.usraddr := by
  simp only [mem_keys_iff, tdelete_toList key t t1 ho h, List.mem_filter]
  constructor
  · rintro ⟨e, ⟨he, hne⟩, rfl⟩
    exact ⟨⟨e, he, rfl⟩, by simpa using hne⟩
  · rintro ⟨⟨e, he, rfl⟩, hne⟩
    exact ⟨e, ⟨he, by simpa using hne⟩, rfl⟩

/-! ## The manager: lemmas -/

/-- Function `register_mem` either inserts the new record (result 0) or
fails with result 1 and leaves the state alone. -/
theorem register_mem_cases (type size handle busaddr usraddr : Nat) (priv : rpimemmgr_priv)
    (be : Backend) :
    (register_mem type size handle busaddr usraddr priv be = (1, priv)) ∨
    (∃ root1, tsearch ⟨type, size, handle, busaddr, usraddr⟩ be.tsearch_node priv.root
        = .inserted root1 ∧
      register_mem type size handle busaddr usraddr priv be
        = (0, { priv with root := root1 })) := by
  unfold register_mem
  dsimp only
  by_cases hm : be.malloc = false
  · rw [if_pos hm]; exact Or.inl rfl
  · rw [if_neg hm]
    cases ht : tsearch ⟨type, size, handle, busaddr, usraddr⟩ be.tsearch_node priv.root with
    | null => exact Or.inl rfl
    | found _ => exact Or.inl rfl
    | inserted root1 => exact Or.inr ⟨root1, rfl, rfl⟩

/-- Outcome of `rpimemmgr_alloc_vcsm` on a live handle: either `NULL` with the
state exactly as before, or the backend address with the new record
inserted. -/
theorem alloc_vcsm_cases (size align cache_type : Nat) (b : Bool) (priv : rpimemmgr_priv)
    (be : Backend) :
    (∃ calls, rpimemmgr_alloc_vcsm size align cache_type b (some priv) be
        = .done (0, none) (some priv) calls) ∨
    (∃ root1 calls,
      (be.alloc_mem_vcsm size align cache_type).err = 0 ∧
      tsearch ⟨MEM_TYPE_VCSM, size, (be.alloc_mem_vcsm size align cache_type).handle,
          (be.alloc_mem_vcsm size align cache_type).busaddr,
          (be.alloc_mem_vcsm size align cache_type).usraddr⟩ be.tsearch_node priv.root
        = .inserted root1 ∧
      rpimemmgr_alloc_vcsm size align cache_type b (some priv) be
        = .done ((be.alloc_mem_vcsm size align cache_type).usraddr,
            if b then some (be.alloc_mem_vcsm size align cache_type).busaddr else none)
          (some { priv with root := root1 }) calls) := by
  unfold rpimemmgr_alloc_vcsm
  dsimp only
  by_cases h1 : priv.is_vcsm_inited = false ∧ be.vcsm_init ≠ 0
  · rw [if_pos h1]; exact Or.inl ⟨_, rfl⟩
  · rw [if_neg h1]
    by_cases h2 : (be.alloc_mem_vcsm size align cache_type).err ≠ 0
    · rw [if_pos h2]; exact Or.inl ⟨_, rfl⟩
    · rw [if_neg h2]
      rcases register_mem_cases MEM_TYPE_VCSM size
        (be.alloc_mem_vcsm size align cache_type).handle
        (be.alloc_mem_vcsm size align cache_type).busaddr
        (be.alloc_mem_vcsm size align cache_type).usraddr priv be with hr | ⟨root1, ht, hr⟩
      · rw [hr]
        have : ((1 : Int), priv).1 ≠ 0 := by simp
        rw [if_pos this]; exact Or.inl ⟨_, rfl⟩
      · rw [hr]
        have : ¬ ((0 : Int), ({ priv with root := root1 } : rpimemmgr_priv)).1 ≠ 0 := by simp
        rw [if_neg this]
        exact Or.inr ⟨root1, _, by simpa using h2, ht, rfl⟩

/-- Outcome of `rpimemmgr_alloc_mailbox` on a live handle: either `NULL` with
the registry and the flag as before and the handles untouched or both unset,
or the backend address with the new record inserted and both handles open. -/
theorem alloc_mailbox_cases (size align flags : Nat) (b : Bool) (priv : rpimemmgr_priv)
    (be : Backend) :
    (∃ calls priv1, rpimemmgr_alloc_mailbox size align flags b (some priv) be
        = .done (0, none) (some priv1) calls ∧
      priv1.root = priv.root ∧ priv1.is_vcsm_inited = priv.is_vcsm_inited ∧
      ((priv1 = priv ∧ priv.fd_mb = -1) ∨
        (priv1.fd_mb = -1 ∧ priv1.fd_mem = -1 ∧ ∃ fd, Call.mailbox_close fd ∈ calls))) ∨
    (∃ root1 calls,
      (be.alloc_mem_mailbox (lazily_opened priv be).fd_mb (lazily_opened priv be).fd_mem
        size align flags).err = 0 ∧
      tsearch ⟨MEM_TYPE_MAILBOX, size,
          (be.alloc_mem_mailbox (lazily_opened priv be).fd_mb (lazily_opened priv be).fd_mem
            size align flags).handle,
          (be.alloc_mem_mailbox (lazily_opened priv be).fd_mb (lazily_opened priv be).fd_mem
            size align flags).busaddr,
          (be.alloc_mem_mailbox (lazily_opened priv be).fd_mb (lazily_opened priv be).fd_mem
            size align flags).usraddr⟩ be.tsearch_node priv.root
        = .inserted root1 ∧
      (lazily_opened priv be).fd_mb ≠ -1 ∧ (lazily_opened priv be).fd_mem ≠ -1 ∧
      calls = (if priv.fd_mb = -1 then [Call.mailbox_open] else []) ++
        (if priv.fd_mem = -1 then [Call.open_dev_mem] else []) ++
        [Call.alloc_mem_mailbox (lazily_opened priv be).fd_mb (lazily_opened priv be).fd_mem
          size align flags] ∧
      rpimemmgr_alloc_mailbox size align flags b (some priv) be
        = .done ((be.alloc_mem_mailbox (lazily_opened priv be).fd_mb
              (lazily_opened priv be).fd_mem size align flags).usraddr,
            if b then some (be.alloc_mem_mailbox (lazily_opened priv be).fd_mb
              (lazily_opened priv be).fd_mem size align flags).busaddr else none)
          (some { lazily_opened priv be with root := root1 }) calls) := by
  unfold rpimemmgr_alloc_mailbox
  dsimp only
  by_cases h1 : priv.fd_mb = -1 ∧ be.mailbox_open = -1
  · rw [if_pos h1]; exact Or.inl ⟨_, _, rfl, rfl, rfl, Or.inl ⟨rfl, h1.1⟩⟩
  · rw [if_neg h1]
    have e1 : (if priv.fd_mb = -1 then { priv with fd_mb := be.mailbox_open } else priv)
        = { priv with fd_mb := (lazily_opened priv be).fd_mb } := by
      unfold lazily_opened; split_ifs <;> rfl
    rw [e1]
    dsimp only
    by_cases h2 : priv.fd_mem = -1 ∧ be.open_dev_mem = -1
    · rw [if_pos h2]
      exact Or.inl ⟨_, _, rfl, rfl, rfl,
        Or.inr ⟨rfl, h2.1, (lazily_opened priv be).fd_mb, by simp⟩⟩
    · rw [if_neg h2]
      have e2 : (if priv.fd_mem = -1 then
            ({ is_vcsm_inited := priv.is_vcsm_inited, fd_mb := (lazily_opened priv be).fd_mb,
               fd_mem := be.open_dev_mem, root := priv.root } : rpimemmgr_priv)
          else { priv with fd_mb := (lazily_opened priv be).fd_mb })
          = lazily_opened priv be := by
        unfold lazily_opened; split_ifs <;> rfl
      rw [e2]
      have hmb : (lazily_opened priv be).fd_mb ≠ -1 := by
        unfold lazily_opened; dsimp only; split_ifs with h
        · exact fun hh => h1 ⟨h, hh⟩
        · exact h
      have hmem : (lazily_opened priv be).fd_mem ≠ -1 := by
        unfold lazily_opened; dsimp only; split_ifs with h
        · exact fun hh => h2 ⟨h, hh⟩
        · exact h
      by_cases h3 : (be.alloc_mem_mailbox (lazily_opened priv be).fd_mb
          (lazily_opened priv be).fd_mem size align flags).err ≠ 0
      · rw [if_pos h3]
        exact Or.inl ⟨_, _, rfl, rfl, rfl,
          Or.inr ⟨rfl, rfl, (lazily_opened priv be).fd_mb, by simp⟩⟩
      · rw [if_neg h3]
        rcases register_mem_cases MEM_TYPE_MAILBOX size
          (be.alloc_mem_mailbox (lazily_opened priv be).fd_mb
            (lazily_opened priv be).fd_mem size align flags).handle
          (be.alloc_mem_mailbox (lazily_opened priv be).fd_mb
            (lazily_opened priv be).fd_mem size align flags).busaddr
          (be.alloc_mem_mailbox (lazily_opened priv be).fd_mb
            (lazily_opened priv be).fd_mem size align flags).usraddr
          (lazily_opened priv be) be with hr | ⟨root1, ht, hr⟩
        · rw [hr]
          have : ((1 : Int), lazily_opened priv be).1 ≠ 0 := by simp
          rw [if_pos this]
          exact Or.inl ⟨_, _, rfl, rfl, rfl,
          Or.inr ⟨rfl, rfl, (lazily_opened priv be).fd_mb, by simp⟩⟩
        · rw [hr]
          have : ¬ ((0 : Int),
              ({ lazily_opened priv be with root := root1 } : rpimemmgr_priv)).1 ≠ 0 := by simp
          rw [if_neg this]
          exact Or.inr ⟨root1, _, by simpa using h3, ht, hmb, hmem, rfl, rfl⟩

/-- Function `free_elem` on a record that `tdelete` finds: the node is
unlinked and the release of the record's tag is called. -/
theorem free_elem_found (ep : mem_elem) (priv : rpimemmgr_priv) (be : Backend) (root1 : node)
    (h : tdelete ep priv.root = some root1) :
    free_elem ep priv be =
      if ep.type = MEM_TYPE_VCSM then
        (be.free_mem_vcsm ep.handle ep.usraddr, { priv with root := root1 },
          [Call.free_mem_vcsm ep.handle ep.usraddr])
      else if ep.type = MEM_TYPE_MAILBOX then
        (be.free_mem_mailbox priv.fd_mb ep.size ep.handle ep.busaddr ep.usraddr,
          { priv with root := root1 },
          [Call.free_mem_mailbox priv.fd_mb ep.size ep.handle ep.busaddr ep.usraddr])
      else (1, { priv with root := root1 }, []) := by
  unfold free_elem
  rw [h]

/-- A record found by `rpimemmgr_free` is also found by the `tdelete` of
`free_elem`. -/
theorem tdelete_of_tfind (key ep : mem_elem) (t : node) (h : tfind key t = some ep) :
    ∃ t1, tdelete ep t = some t1 := by
  have h1 : (tdelete key t).isSome = true := by rw [tdelete_isSome, h]; rfl
  have h2 : tdelete ep t = tdelete key t := tdelete_congr ep key (tfind_some_mem key t ep h).2 t
  rw [h2]
  exact Option.isSome_iff_exists.1 h1

theorem free_elem_state (ep : mem_elem) (priv : rpimemmgr_priv) (be : Backend) (root1 : node)
    (h : tdelete ep priv.root = some root1) :
    (free_elem ep priv be).2.1 = { priv with root := root1 } := by
  rw [free_elem_found ep priv be root1 h]
  split_ifs <;> rfl

/-- Outcome of `rpimemmgr_free` on a live handle with an ordered registry:
either the address is no key and nothing changes, or its node is unlinked
and only the registry changes. -/
theorem free_cases (usraddr : Nat) (priv : rpimemmgr_priv) (be : Backend)
    (ho : Ordered priv.root) :
    (usraddr ∉ priv.root.keys ∧
      rpimemmgr_free usraddr (some priv) be = .done 1 (some priv) []) ∨
    (∃ ep root1 ret calls, tfind ⟨0, 0, 0, 0, usraddr⟩ priv.root = some ep ∧
      ep.usraddr = usraddr ∧ tdelete ep priv.root = some root1 ∧
      rpimemmgr_free usraddr (some priv) be
        = .done ret (some { priv with root := root1 }) calls) := by
  cases hf : tfind ⟨0, 0, 0, 0, usraddr⟩ priv.root with
  | none =>
    left
    have hn := (tfind_eq_none_iff _ _ ho).1 hf
    refine ⟨hn, ?_⟩
    unfold rpimemmgr_free
    dsimp only
    rw [hf]
  | some ep =>
    right
    obtain ⟨root1, hd⟩ := tdelete_of_tfind _ ep _ hf
    refine ⟨ep, root1, (free_elem ep priv be).1, (free_elem ep priv be).2.2, rfl,
      (tfind_some_mem _ _ _ hf).2, hd, ?_⟩
    unfold rpimemmgr_free
    dsimp only
    rw [hf]
    dsimp only
    rw [free_elem_state ep priv be root1 hd]

/-- One call of the interface keeps the registry ordered and keeps its keys
equal to the caller's live addresses. -/
theorem step_invariant (op : Op) (be : Backend) (priv : rpimemmgr_priv) (live : List Nat)
    (hbe : be.addr_nonnull) (ho : Ordered priv.root)
    (hl : ∀ a, a ∈ priv.root.keys ↔ a ∈ live) :
    ∃ priv1, op.next (some priv) be = some priv1 ∧ Ordered priv1.root ∧
      ∀ a, a ∈ priv1.root.keys ↔ a ∈ op.track (some priv) be live := by
  cases op with
  | alloc s size align opt b =>
    cases s with
    | vcsm =>
      rcases alloc_vcsm_cases size align opt b priv be with ⟨c, hc⟩ | ⟨root1, c, he, ht, hc⟩
      · refine ⟨priv, ?_, ho, ?_⟩
        · simp only [Op.next, alloc_by, hc, Outcome.sp_after]
        · simp only [Op.track, alloc_by, hc, Outcome.returned]
          simpa using hl
      · refine ⟨{ priv with root := root1 }, ?_, tsearch_inserted_ordered _ _ _ _ ho ht, ?_⟩
        · simp only [Op.next, alloc_by, hc, Outcome.sp_after]
        · have hne := hbe.1 size align opt he
          intro a
          simp only [Op.track, alloc_by, hc, Outcome.returned, ne_eq, hne, not_false_eq_true,
            if_true, List.mem_cons]
          rw [tsearch_inserted_keys _ _ _ _ ht a, hl a]
    | mailbox =>
      rcases alloc_mailbox_cases size align opt b priv be with
        ⟨c, p1, hc, hroot, _, _⟩ | ⟨root1, c, he, ht, _, _, _, hc⟩
      · refine ⟨p1, ?_, by rw [hroot]; exact ho, ?_⟩
        · simp only [Op.next, alloc_by, hc, Outcome.sp_after]
        · simp only [Op.track, alloc_by, hc, Outcome.returned, hroot]
          simpa using hl
      · refine ⟨{ lazily_opened priv be with root := root1 }, ?_,
          tsearch_inserted_ordered _ _ _ _ ho ht, ?_⟩
        · simp only [Op.next, alloc_by, hc, Outcome.sp_after]
        · have hne := hbe.2 _ _ size align opt he
          intro a
          simp only [Op.track, alloc_by, hc, Outcome.returned, ne_eq, hne, not_false_eq_true,
            if_true, List.mem_cons]
          rw [tsearch_inserted_keys _ _ _ _ ht a, hl a]
  | free usraddr =>
    rcases free_cases usraddr priv be ho with ⟨hn, hc⟩ | ⟨ep, root1, ret, c, _, hep, hd, hc⟩
    · refine ⟨priv, ?_, ho, ?_⟩
      · simp only [Op.next, hc, Outcome.sp_after]
      · intro a
        simp only [Op.track, List.mem_filter, decide_eq_true_eq, ← hl a]
        constructor
        · intro ha
          exact ⟨ha, fun h => hn (h ▸ ha)⟩
        · exact fun h => h.1
    · refine ⟨{ priv with root := root1 }, ?_, tdelete_ordered _ _ _ ho hd, ?_⟩
      · simp only [Op.next, hc, Outcome.sp_after]
      · intro a
        simp only [Op.track, List.mem_filter, decide_eq_true_eq, ← hl a]
        rw [tdelete_keys ep priv.root root1 ho hd a, hep]

/-- A sequence of calls keeps the registry ordered and keeps its keys equal
to the caller's live addresses. -/
theorem run_invariant (steps : List (Op × Backend)) (priv : rpimemmgr_priv) (live : List Nat)
    (hbe : ∀ s ∈ steps, s.2.addr_nonnull) (ho : Ordered priv.root)
    (hl : ∀ a, a ∈ priv.root.keys ↔ a ∈ live) :
    ∃ priv1 live1, run steps (some priv, live) = (some priv1, live1) ∧ Ordered priv1.root ∧
      ∀ a, a ∈ priv1.root.keys ↔ a ∈ live1 := by
  induction steps generalizing priv live with
  | nil => exact ⟨priv, live, rfl, ho, hl⟩
  | cons step rest ih =>
    obtain ⟨p1, hn, ho1, hl1⟩ :=
      step_invariant step.1 step.2 priv live (hbe step (List.mem_cons_self _ _)) ho hl
    obtain ⟨p2, l2, hr, ho2, hl2⟩ :=
      ih p1 _ (fun s hs => hbe s (List.mem_cons_of_mem _ hs)) ho1 hl1
    refine ⟨p2, l2, ?_, ho2, hl2⟩
    simp only [run, hn]
    exact hr

theorem sample_backend_addr_nonnull : sample_backend.addr_nonnull :=
  ⟨fun _ _ _ _ => by simp [sample_backend], fun _ _ _ _ _ _ => by simp [sample_backend]⟩

theorem failing_release_backend_addr_nonnull : failing_release_backend.addr_nonnull :=
  ⟨fun _ _ _ _ => by simp [failing_release_backend, sample_backend],
   fun _ _ _ _ _ _ => by simp [failing_release_backend, sample_backend]⟩

theorem failing_alloc_backend_addr_nonnull : failing_alloc_backend.addr_nonnull :=
  ⟨fun _ _ _ h => by simp [failing_alloc_backend] at h,
   fun _ _ _ _ _ h => by simp [failing_alloc_backend] at h⟩

/-- Function `free_elem` on the record at the root: the root is unlinked. -/
theorem free_elem_root (iv : Bool) (mb mem : Int) (l : node) (k : mem_elem) (r : node)
    (be : Backend) :
    free_elem k ⟨iv, mb, mem, .mk l k r⟩ be =
      if k.type = MEM_TYPE_VCSM then
        (be.free_mem_vcsm k.handle k.usraddr, ⟨iv, mb, mem, unlink_root l r⟩,
          [Call.free_mem_vcsm k.handle k.usraddr])
      else if k.type = MEM_TYPE_MAILBOX then
        (be.free_mem_mailbox mb k.size k.handle k.busaddr k.usraddr,
          ⟨iv, mb, mem, unlink_root l r⟩,
          [Call.free_mem_mailbox mb k.size k.handle k.busaddr k.usraddr])
      else (1, ⟨iv, mb, mem, unlink_root l r⟩, []) := by
  have h := free_elem_found k ⟨iv, mb, mem, .mk l k r⟩ be (unlink_root l r)
    (by rw [tdelete_mk, if_pos rfl])
  exact h

theorem free_elem_root_state (iv : Bool) (mb mem : Int) (l : node) (k : mem_elem) (r : node)
    (be : Backend) :
    (free_elem k ⟨iv, mb, mem, .mk l k r⟩ be).2.1 = ⟨iv, mb, mem, unlink_root l r⟩ := by
  rw [free_elem_root]; split_ifs <;> rfl

theorem free_elem_root_result (iv : Bool) (mb mem : Int) (l : node) (k : mem_elem) (r : node)
    (be : Backend) (hk : k.type = MEM_TYPE_VCSM ∨ k.type = MEM_TYPE_MAILBOX) :
    (free_elem k ⟨iv, mb, mem, .mk l k r⟩ be).1 = release_result be mb k := by
  rw [free_elem_root]
  unfold release_result
  rcases hk with hk | hk
  · rw [if_pos hk, if_pos hk]
  · have hne : ¬ k.type = MEM_TYPE_VCSM := by rw [hk]; decide
    rw [if_neg hne, if_pos hk, if_neg hne]

/-- The sweep loop, given as many iterations as the tree has nodes, stops
because the tree is empty; it changes nothing but the registry. -/
theorem free_all_elems_loop_state (fuel : Nat) (e : Int) (priv : rpimemmgr_priv) (be : Backend)
    (hf : priv.root.size ≤ fuel) :
    (free_all_elems_loop fuel e priv be).2.1 = { priv with root := .nil } := by
  induction fuel generalizing e priv with
  | zero =>
    obtain ⟨iv, mb, mem, root⟩ := priv
    cases root with
    | nil => rfl
    | mk l k r => simp [node.size] at hf
  | succ n ih =>
    obtain ⟨iv, mb, mem, root⟩ := priv
    cases root with
    | nil => rfl
    | mk l k r =>
      simp only [free_all_elems_loop]
      rw [free_elem_root_state]
      rw [ih]
      simp only [unlink_root_size]
      simp only [node.size] at hf
      omega

/-- Function `free_all_elems` always leaves an empty registry and touches
nothing else. -/
theorem free_all_elems_root (priv : rpimemmgr_priv) (be : Backend) :
    (free_all_elems priv be).2.1 = { priv with root := .nil } :=
  free_all_elems_loop_state _ 0 priv be (le_refl _)

/-- The sweep loop reports a failure exactly when it started with one or some
record's release fails. -/
theorem free_all_elems_loop_result (fuel : Nat) (e : Int) (priv : rpimemmgr_priv)
    (be : Backend) (hf : priv.root.size ≤ fuel) (ht : TagsValid priv.root) :
    (free_all_elems_loop fuel e priv be).1 ≠ 0 ↔
      e ≠ 0 ∨ ∃ ep ∈ priv.root.toList, release_result be priv.fd_mb ep ≠ 0 := by
  induction fuel generalizing e priv with
  | zero =>
    obtain ⟨iv, mb, mem, root⟩ := priv
    cases root with
    | nil => simp [free_all_elems_loop, node.toList]
    | mk l k r => simp [node.size] at hf
  | succ n ih =>
    obtain ⟨iv, mb, mem, root⟩ := priv
    cases root with
    | nil => simp [free_all_elems_loop, node.toList]
    | mk l k r =>
      have hk : k.type = MEM_TYPE_VCSM ∨ k.type = MEM_TYPE_MAILBOX :=
        ht k (by simp [node.toList])
      have ht1 : TagsValid (unlink_root l r) := by
        intro ep hep
        rw [unlink_root_toList] at hep
        apply ht ep
        simp only [node.toList, List.mem_append, List.mem_cons] at hep ⊢
        tauto
      have hsz : (unlink_root l r).size ≤ n := by
        simp only [unlink_root_size]
        simp only [node.size] at hf
        omega
      simp only [free_all_elems_loop]
      rw [free_elem_root_state, free_elem_root_result _ _ _ _ _ _ _ hk]
      rw [ih _ ⟨iv, mb, mem, unlink_root l r⟩ hsz ht1]
      simp only [unlink_root_toList, node.toList, List.mem_append, List.mem_cons]
      by_cases hrel : release_result be mb k = 0
      · simp only [hrel, ne_eq, not_true_eq_false, if_false]
        constructor
        · rintro (h | ⟨ep, hep | hep, hne⟩)
          · exact Or.inl h
          · exact Or.inr ⟨ep, Or.inl hep, hne⟩
          · exact Or.inr ⟨ep, Or.inr (Or.inr hep), hne⟩
        · rintro (h | ⟨ep, hep | rfl | hep, hne⟩)
          · exact Or.inl h
          · exact Or.inr ⟨ep, Or.inl hep, hne⟩
          · exact absurd hrel hne
          · exact Or.inr ⟨ep, Or.inr hep, hne⟩
      · simp only [ne_eq, hrel, not_false_eq_true, if_true, true_or, true_iff]
        exact Or.inr ⟨k, Or.inr (Or.inl rfl), hrel⟩

/-- A mailbox alloc that starts with both resources open opens neither. -/
theorem alloc_mailbox_no_open (size align flags : Nat) (b : Bool) (priv : rpimemmgr_priv)
    (be : Backend) (hmb : priv.fd_mb ≠ -1) (hmem : priv.fd_mem ≠ -1) :
    (rpimemmgr_alloc_mailbox size align flags b (some priv) be).calls_made.count
        Call.mailbox_open = 0 ∧
    (rpimemmgr_alloc_mailbox size align flags b (some priv) be).calls_made.count
        Call.open_dev_mem = 0 := by
  unfold rpimemmgr_alloc_mailbox
  simp only [hmb, hmem, false_and, if_false]
  split_ifs <;> simp [Outcome.calls_made]

/-- Freeing the address of a registered record unlinks it, calls the release
of its tag with the stored values, and returns what that release returns. -/
theorem free_registered (priv : rpimemmgr_priv) (be : Backend) (ep : mem_elem)
    (ho : Ordered priv.root) (hm : ep ∈ priv.root.toList) :
    ∃ root1, tdelete ep priv.root = some root1 ∧
      rpimemmgr_free ep.usraddr (some priv) be =
        .done (free_elem ep priv be).1 (some { priv with root := root1 })
          (free_elem ep priv be).2.2 := by
  have hf : tfind ⟨0, 0, 0, 0, ep.usraddr⟩ priv.root = some ep :=
    tfind_of_mem _ _ ho ep hm rfl
  obtain ⟨root1, hd⟩ := tdelete_of_tfind _ ep _ hf
  refine ⟨root1, hd, ?_⟩
  unfold rpimemmgr_free
  dsimp only
  rw [hf]
  dsimp only
  rw [free_elem_state ep priv be root1 hd]

/-- Function `register_mem` given an address that is already a key of an
ordered registry fails and leaves the state alone. -/
theorem register_mem_duplicate (type size handle busaddr usraddr : Nat)
    (priv : rpimemmgr_priv) (be : Backend) (ho : Ordered priv.root)
    (hdup : usraddr ∈ priv.root.keys) :
    register_mem type size handle busaddr usraddr priv be = (1, priv) := by
  rcases register_mem_cases type size handle busaddr usraddr priv be with h | ⟨root1, ht, _⟩
  · exact h
  · exfalso
    obtain ⟨e, he, hk⟩ := (mem_keys_iff priv.root usraddr).1 hdup
    have hf : tfind ⟨type, size, handle, busaddr, usraddr⟩ priv.root = some e :=
      tfind_of_mem _ _ ho e he hk
    rw [← tsearch_found_iff _ be.tsearch_node] at hf
    rw [hf] at ht
    cases ht

/-- Outcome of the alloc of either strategy on a live handle.  When it fails
at one of its failure points it returns `NULL` and leaves the registry and the
flag alone; the shared alloc then leaves the whole state alone, the mailbox
alloc leaves the state alone (the control resource was unset) or leaves both
handles unset.  Otherwise it inserts the record made of the strategy's tag,
the requested size and the output of the backend allocate, and returns the
address of that output. -/
theorem alloc_outcome (s : Strategy) (size align opt : Nat) (b : Bool)
    (priv : rpimemmgr_priv) (be : Backend) :
    (alloc_fails s size align opt priv be ∧
      ∃ calls priv1,
        alloc_by s size align opt b (some priv) be = .done (0, none) (some priv1) calls ∧
        priv1.root = priv.root ∧ priv1.is_vcsm_inited = priv.is_vcsm_inited ∧
        ((s = .vcsm ∧ priv1 = priv) ∨
         (s = .mailbox ∧
           ((priv1 = priv ∧ priv.fd_mb = -1) ∨ (priv1.fd_mb = -1 ∧ priv1.fd_mem = -1))))) ∨
    (¬ alloc_fails s size align opt priv be ∧
      ∃ root1 B priv1 calls,
        tsearch ⟨s.tag, size, (backend_alloc s size align opt priv be).handle,
            (backend_alloc s size align opt priv be).busaddr,
            (backend_alloc s size align opt priv be).usraddr⟩ be.tsearch_node priv.root
          = .inserted root1 ∧
        alloc_by s size align opt b (some priv) be
          = .done ((backend_alloc s size align opt priv be).usraddr, B) (some priv1) calls ∧
        priv1.root = root1) := by
  cases s with
  | vcsm =>
    unfold alloc_by alloc_fails backend_alloc Strategy.tag
    dsimp only
    unfold rpimemmgr_alloc_vcsm
    dsimp only
    by_cases h1 : priv.is_vcsm_inited = false ∧ be.vcsm_init ≠ 0
    · rw [if_pos h1]
      exact Or.inl ⟨Or.inl h1, _, priv, rfl, rfl, rfl, Or.inl ⟨rfl, rfl⟩⟩
    · rw [if_neg h1]
      by_cases h2 : (be.alloc_mem_vcsm size align opt).err ≠ 0
      · rw [if_pos h2]
        exact Or.inl ⟨Or.inr (Or.inl h2), _, priv, rfl, rfl, rfl, Or.inl ⟨rfl, rfl⟩⟩
      · rw [if_neg h2]
        rcases register_mem_cases MEM_TYPE_VCSM size
          (be.alloc_mem_vcsm size align opt).handle
          (be.alloc_mem_vcsm size align opt).busaddr
          (be.alloc_mem_vcsm size align opt).usraddr priv be with hr | ⟨root1, ht, hr⟩
        · rw [hr]
          have h3 : ((1 : Int), priv).1 ≠ 0 := by simp
          rw [if_pos h3]
          exact Or.inl ⟨Or.inr (Or.inr h3), _, priv, rfl, rfl, rfl, Or.inl ⟨rfl, rfl⟩⟩
        · rw [hr]
          have h3 : ¬ ((0 : Int), ({ priv with root := root1 } : rpimemmgr_priv)).1 ≠ 0 := by
            simp
          rw [if_neg h3]
          refine Or.inr ⟨?_, root1, _, _, _, ht, rfl, rfl⟩
          rintro (h | h | h)
          · exact h1 h
          · exact h2 h
          · exact h3 h
  | mailbox =>
    unfold alloc_by alloc_fails backend_alloc Strategy.tag
    dsimp only
    unfold rpimemmgr_alloc_mailbox
    dsimp only
    by_cases h1 : priv.fd_mb = -1 ∧ be.mailbox_open = -1
    · rw [if_pos h1]
      exact Or.inl ⟨Or.inl h1, _, priv, rfl, rfl, rfl, Or.inr ⟨rfl, Or.inl ⟨rfl, h1.1⟩⟩⟩
    · rw [if_neg h1]
      have e1 : (if priv.fd_mb = -1 then { priv with fd_mb := be.mailbox_open } else priv)
          = { priv with fd_mb := (lazily_opened priv be).fd_mb } := by
        unfold lazily_opened; split_ifs <;> rfl
      rw [e1]
      dsimp only
      by_cases h2 : priv.fd_mem = -1 ∧ be.open_dev_mem = -1
      · rw [if_pos h2]
        exact Or.inl ⟨Or.inr (Or.inl h2), _, _, rfl, rfl, rfl,
          Or.inr ⟨rfl, Or.inr ⟨rfl, h2.1⟩⟩⟩
      · rw [if_neg h2]
        have e2 : (if priv.fd_mem = -1 then
              ({ is_vcsm_inited := priv.is_vcsm_inited, fd_mb := (lazily_opened priv be).fd_mb,
                 fd_mem := be.open_dev_mem, root := priv.root } : rpimemmgr_priv)
            else { priv with fd_mb := (lazily_opened priv be).fd_mb })
            = lazily_opened priv be := by
          unfold lazily_opened; split_ifs <;> rfl
        rw [e2]
        by_cases h3 : (be.alloc_mem_mailbox (lazily_opened priv be).fd_mb
            (lazily_opened priv be).fd_mem size align opt).err ≠ 0
        · rw [if_pos h3]
          exact Or.inl ⟨Or.inr (Or.inr (Or.inl h3)), _, _, rfl, rfl, rfl,
            Or.inr ⟨rfl, Or.inr ⟨rfl, rfl⟩⟩⟩
        · rw [if_neg h3]
          rcases register_mem_cases MEM_TYPE_MAILBOX size
            (be.alloc_mem_mailbox (lazily_opened priv be).fd_mb
              (lazily_opened priv be).fd_mem size align opt).handle
            (be.alloc_mem_mailbox (lazily_opened priv be).fd_mb
              (lazily_opened priv be).fd_mem size align opt).busaddr
            (be.alloc_mem_mailbox (lazily_opened priv be).fd_mb
              (lazily_opened priv be).fd_mem size align opt).usraddr
            (lazily_opened priv be) be with hr | ⟨root1, ht, hr⟩
          · rw [hr]
            have h4 : ((1 : Int), lazily_opened priv be).1 ≠ 0 := by simp
            rw [if_pos h4]
            exact Or.inl ⟨Or.inr (Or.inr (Or.inr h4)), _, _, rfl, rfl, rfl,
              Or.inr ⟨rfl, Or.inr ⟨rfl, rfl⟩⟩⟩
          · rw [hr]
            have h4 : ¬ ((0 : Int),
                ({ lazily_opened priv be with root := root1 } : rpimemmgr_priv)).1 ≠ 0 := by
              simp
            rw [if_neg h4]
            refine Or.inr ⟨?_, root1, _, _, _, ht, rfl, rfl⟩
            rintro (h | h | h | h)
            · exact h1 h
            · exact h2 h
            · exact h3 h
            · exact h4 h

/-! ## States reached from `rpimemmgr_init` -/

theorem next_none (op : Op) (be : Backend) : op.next none be = none := by
  cases op with
  | alloc s size align opt b => cases s <;> rfl
  | free usraddr => rfl

theorem run_none (steps : List (Op × Backend)) (live : List Nat) :
    (run steps (none, live)).1 = none := by
  induction steps generalizing live with
  | nil => rfl
  | cons step rest ih =>
    simp only [run, next_none]
    exact ih _

/-- Function `rpimemmgr_free` on a live handle returns and changes nothing but
the registry. -/
theorem free_frame (usraddr : Nat) (priv : rpimemmgr_priv) (be : Backend) :
    ∃ ret root1 calls,
      rpimemmgr_free usraddr (some priv) be
        = .done ret (some { priv with root := root1 }) calls := by
  unfold rpimemmgr_free
  dsimp only
  cases hf : tfind ⟨0, 0, 0, 0, usraddr⟩ priv.root with
  | none => exact ⟨1, priv.root, [], rfl⟩
  | some ep =>
    obtain ⟨root1, hd⟩ := tdelete_of_tfind _ ep _ hf
    dsimp only
    rw [free_elem_state ep priv be root1 hd]
    exact ⟨_, root1, _, rfl⟩

/-- One call keeps the subsystem flag, and leaves the two handles as they
were, or both unset, or both set. -/
theorem step_fds (op : Op) (be : Backend) (priv priv1 : rpimemmgr_priv)
    (h : op.next (some priv) be = some priv1) :
    priv1.is_vcsm_inited = priv.is_vcsm_inited ∧
    ((priv1.fd_mb = priv.fd_mb ∧ priv1.fd_mem = priv.fd_mem) ∨
     (priv1.fd_mb = -1 ∧ priv1.fd_mem = -1) ∨
     (priv1.fd_mb ≠ -1 ∧ priv1.fd_mem ≠ -1)) := by
  cases op with
  | alloc s size align opt b =>
    cases s with
    | vcsm =>
      rcases alloc_vcsm_cases size align opt b priv be with ⟨c, hc⟩ | ⟨root1, c, _, _, hc⟩
      · simp only [Op.next, alloc_by, hc, Outcome.sp_after, Option.some.injEq] at h
        subst h
        exact ⟨rfl, Or.inl ⟨rfl, rfl⟩⟩
      · simp only [Op.next, alloc_by, hc, Outcome.sp_after, Option.some.injEq] at h
        subst h
        exact ⟨rfl, Or.inl ⟨rfl, rfl⟩⟩
    | mailbox =>
      rcases alloc_mailbox_cases size align opt b priv be with
        ⟨c, p1, hc, _, hflag, hfd⟩ | ⟨root1, c, _, _, hmb, hmem, _, hc⟩
      · simp only [Op.next, alloc_by, hc, Outcome.sp_after, Option.some.injEq] at h
        subst h
        refine ⟨hflag, ?_⟩
        rcases hfd with ⟨h1, _⟩ | ⟨h2a, h2b, _⟩
        · rw [h1]; exact Or.inl ⟨rfl, rfl⟩
        · exact Or.inr (Or.inl ⟨h2a, h2b⟩)
      · simp only [Op.next, alloc_by, hc, Outcome.sp_after, Option.some.injEq] at h
        subst h
        exact ⟨rfl, Or.inr (Or.inr ⟨hmb, hmem⟩)⟩
  | free usraddr =>
    obtain ⟨ret, root1, c, hc⟩ := free_frame usraddr priv be
    simp only [Op.next, hc, Outcome.sp_after, Option.some.injEq] at h
    subst h
    exact ⟨rfl, Or.inl ⟨rfl, rfl⟩⟩

/-- A property of the state that every call preserves holds after every
sequence of calls. -/
theorem run_induction (P : rpimemmgr_priv → Prop)
    (hstep : ∀ op be priv priv1, P priv → Op.next op (some priv) be = some priv1 → P priv1)
    (steps : List (Op × Backend)) (priv : rpimemmgr_priv) (live : List Nat)
    (priv1 : rpimemmgr_priv) (h0 : P priv)
    (hrun : (run steps (some priv, live)).1 = some priv1) : P priv1 := by
  induction steps generalizing priv live with
  | nil =>
    simp only [run, Option.some.injEq] at hrun
    subst hrun
    exact h0
  | cons step rest ih =>
    simp only [run] at hrun
    cases hn : step.1.next (some priv) step.2 with
    | none =>
      rw [hn, run_none] at hrun
      cases hrun
    | some p1 =>
      rw [hn] at hrun
      exact ih p1 _ (hstep _ _ _ _ h0 hn) hrun

/-- A property that holds of the state left by `rpimemmgr_init` and that every
call preserves holds in every state reached from `rpimemmgr_init`. -/
theorem reachable_induction (P : rpimemmgr_priv → Prop) (h0 : P ⟨false, -1, -1, .nil⟩)
    (hstep : ∀ op be priv priv1, P priv → Op.next op (some priv) be = some priv1 → P priv1)
    (be0 : Backend) (steps : List (Op × Backend)) (priv : rpimemmgr_priv)
    (hrun : (run steps ((rpimemmgr_init false be0).sp_after, [])).1 = some priv) : P priv := by
  unfold rpimemmgr_init at hrun
  by_cases hm : be0.malloc = false
  · simp only [hm, Bool.false_eq_true, if_false, if_true, Outcome.sp_after] at hrun
    rw [run_none] at hrun
    cases hrun
  · simp only [hm, Bool.false_eq_true, if_false, Outcome.sp_after] at hrun
    exact run_induction P hstep steps _ [] priv h0 hrun

/-- In every state reached from `rpimemmgr_init` the two handles are unset
together. -/
theorem reachable_fds (be0 : Backend) (steps : List (Op × Backend)) (priv : rpimemmgr_priv)
    (hrun : (run steps ((rpimemmgr_init false be0).sp_after, [])).1 = some priv) :
    priv.fd_mb = -1 ↔ priv.fd_mem = -1 := by
  refine reachable_induction (fun p => p.fd_mb = -1 ↔ p.fd_mem = -1) (by simp) ?_
    be0 steps priv hrun
  intro op be p p1 hp hn
  rcases (step_fds op be p p1 hn).2 with ⟨h1, h2⟩ | ⟨h1, h2⟩ | ⟨h1, h2⟩
  · rw [h1, h2]; exact hp
  · simp [h1, h2]
  · simp [h1, h2]

/-- One call that does not close the control resource keeps the registry
ordered and keeps the control handle open while a mailbox record is
registered. -/
theorem step_control_open (op : Op) (be : Backend) (priv priv1 : rpimemmgr_priv)
    (ho : Ordered priv.root)
    (hq : (∃ ep ∈ priv.root.toList, ep.type = MEM_TYPE_MAILBOX) → priv.fd_mb ≠ -1)
    (hnc : ∀ fd, Call.mailbox_close fd ∉ op.calls (some priv) be)
    (hn : op.next (some priv) be = some priv1) :
    Ordered priv1.root ∧
    ((∃ ep ∈ priv1.root.toList, ep.type = MEM_TYPE_MAILBOX) → priv1.fd_mb ≠ -1) := by
  cases op with
  | alloc s size align opt b =>
    cases s with
    | vcsm =>
      rcases alloc_vcsm_cases size align opt b priv be with ⟨c, hc⟩ | ⟨root1, c, _, ht, hc⟩
      · simp only [Op.next, alloc_by, hc, Outcome.sp_after, Option.some.injEq] at hn
        subst hn
        exact ⟨ho, hq⟩
      · simp only [Op.next, alloc_by, hc, Outcome.sp_after, Option.some.injEq] at hn
        subst hn
        refine ⟨tsearch_inserted_ordered _ _ _ _ ho ht, ?_⟩
        rintro ⟨ep, hep, hty⟩
        rcases (tsearch_inserted_toList _ _ _ _ ht ep).1 hep with rfl | hold
        · exact absurd hty (show ¬ MEM_TYPE_VCSM = MEM_TYPE_MAILBOX by decide)
        · exact hq ⟨ep, hold, hty⟩
    | mailbox =>
      rcases alloc_mailbox_cases size align opt b priv be with
        ⟨c, p1, hc, hroot, _, hfd⟩ | ⟨root1, c, _, ht, hmb, _, _, hc⟩
      · have hcalls : Op.calls (.alloc .mailbox size align opt b) (some priv) be = c := by
          simp only [Op.calls, alloc_by, hc, Outcome.calls_made]
        simp only [Op.next, alloc_by, hc, Outcome.sp_after, Option.some.injEq] at hn
        subst hn
        rcases hfd with ⟨h1, _⟩ | ⟨_, _, fd, hfdc⟩
        · rw [h1]; exact ⟨ho, hq⟩
        · exact absurd (hcalls ▸ hfdc) (hnc fd)
      · simp only [Op.next, alloc_by, hc, Outcome.sp_after, Option.some.injEq] at hn
        subst hn
        exact ⟨tsearch_inserted_ordered _ _ _ _ ho ht, fun _ => hmb⟩
  | free usraddr =>
    rcases free_cases usraddr priv be ho with ⟨_, hc⟩ | ⟨e1, root1, ret, c, _, _, hd, hc⟩
    · simp only [Op.next, hc, Outcome.sp_after, Option.some.injEq] at hn
      subst hn
      exact ⟨ho, hq⟩
    · simp only [Op.next, hc, Outcome.sp_after, Option.some.injEq] at hn
      subst hn
      refine ⟨tdelete_ordered _ _ _ ho hd, ?_⟩
      rintro ⟨ep, hep, hty⟩
      have hep1 : ep ∈ root1.toList := hep
      rw [tdelete_toList e1 priv.root root1 ho hd, List.mem_filter] at hep1
      exact hq ⟨ep, hep1.1, hty⟩

/-- A sequence of calls none of which closes the control resource keeps the
control handle open while a mailbox record is registered. -/
theorem run_control_open (steps : List (Op × Backend)) (priv : rpimemmgr_priv)
    (live : List Nat) (priv1 : rpimemmgr_priv) (ho : Ordered priv.root)
    (hq : (∃ ep ∈ priv.root.toList, ep.type = MEM_TYPE_MAILBOX) → priv.fd_mb ≠ -1)
    (hnc : ∀ fd, Call.mailbox_close fd ∉ run_calls steps (some priv))
    (hrun : (run steps (some priv, live)).1 = some priv1) :
    (∃ ep ∈ priv1.root.toList, ep.type = MEM_TYPE_MAILBOX) → priv1.fd_mb ≠ -1 := by
  induction steps generalizing priv live with
  | nil =>
    simp only [run, Option.some.injEq] at hrun
    subst hrun
    exact hq
  | cons step rest ih =>
    simp only [run] at hrun
    simp only [run_calls, List.mem_append, not_or] at hnc
    cases hn : step.1.next (some priv) step.2 with
    | none =>
      rw [hn, run_none] at hrun
      cases hrun
    | some p1 =>
      rw [hn] at hrun hnc
      obtain ⟨ho1, hq1⟩ :=
        step_control_open step.1 step.2 priv p1 ho hq (fun fd => (hnc fd).1) hn
      exact ih p1 _ ho1 hq1 (fun fd => (hnc fd).2) hrun

/-! ## The sweep: every record is released once -/

theorem free_elem_root_calls (iv : Bool) (mb mem : Int) (l : node) (k : mem_elem) (r : node)
    (be : Backend) (hk : k.type = MEM_TYPE_VCSM ∨ k.type = MEM_TYPE_MAILBOX) :
    (free_elem k ⟨iv, mb, mem, .mk l k r⟩ be).2.2 = [release_call mb k] := by
  rw [free_elem_root]
  unfold release_call
  rcases hk with hk | hk
  · rw [if_pos hk, if_pos hk]
  · have hne : ¬ k.type = MEM_TYPE_VCSM := by rw [hk]; decide
    rw [if_neg hne, if_pos hk, if_neg hne]

/-- After `fuel` iterations of the sweep loop, `fuel` records fewer are left:
each iteration unlinks exactly one record. -/
theorem free_all_elems_loop_size (fuel : Nat) (e : Int) (priv : rpimemmgr_priv)
    (be : Backend) :
    (free_all_elems_loop fuel e priv be).2.1.root.size = priv.root.size - fuel := by
  induction fuel generalizing e priv with
  | zero => simp [free_all_elems_loop]
  | succ n ih =>
    obtain ⟨iv, mb, mem, root⟩ := priv
    cases root with
    | nil => simp [free_all_elems_loop, node.size]
    | mk l k r =>
      simp only [free_all_elems_loop]
      rw [free_elem_root_state, ih]
      simp only [unlink_root_size, node.size]
      omega

/-- The release calls of the sweep loop are those of the records of the
registry, one for each. -/
theorem free_all_elems_loop_calls (fuel : Nat) (e : Int) (priv : rpimemmgr_priv)
    (be : Backend) (hf : priv.root.size ≤ fuel) (ht : TagsValid priv.root) :
    (free_all_elems_loop fuel e priv be).2.2.Perm
      (priv.root.toList.map (release_call priv.fd_mb)) := by
  induction fuel generalizing e priv with
  | zero =>
    obtain ⟨iv, mb, mem, root⟩ := priv
    cases root with
    | nil => simp [free_all_elems_loop, node.toList]
    | mk l k r => simp [node.size] at hf
  | succ n ih =>
    obtain ⟨iv, mb, mem, root⟩ := priv
    cases root with
    | nil => simp [free_all_elems_loop, node.toList]
    | mk l k r =>
      have hk : k.type = MEM_TYPE_VCSM ∨ k.type = MEM_TYPE_MAILBOX :=
        ht k (by simp [node.toList])
      have ht1 : TagsValid (unlink_root l r) := by
        intro ep hep
        rw [unlink_root_toList] at hep
        apply ht ep
        simp only [node.toList, List.mem_append, List.mem_cons] at hep ⊢
        tauto
      have hsz : (unlink_root l r).size ≤ n := by
        simp only [unlink_root_size]
        simp only [node.size] at hf
        omega
      simp only [free_all_elems_loop]
      rw [free_elem_root_state, free_elem_root_calls _ _ _ _ _ _ _ hk]
      have h := fun e1 => ih e1 ⟨iv, mb, mem, unlink_root l r⟩ hsz ht1
      simp only [unlink_root_toList, List.map_append] at h
      simp only [node.toList, List.map_append, List.map_cons, List.singleton_append]
      exact (List.Perm.cons _ (h _)).trans List.perm_middle.symm

/-! ## Tags of the registered records -/

/-- Effect of an alloc of either strategy on the registry: none when it
returns `NULL`, otherwise the insertion of the record made of the strategy's
tag, the requested size and the output of the backend allocate. -/
theorem alloc_registry (s : Strategy) (size align opt : Nat) (b : Bool)
    (priv : rpimemmgr_priv) (be : Backend) :
    (∃ calls priv1,
      alloc_by s size align opt b (some priv) be = .done (0, none) (some priv1) calls ∧
      priv1.root = priv.root) ∨
    (∃ root1 B priv1 calls,
      (backend_alloc s size align opt priv be).err = 0 ∧
      tsearch ⟨s.tag, size, (backend_alloc s size align opt priv be).handle,
          (backend_alloc s size align opt priv be).busaddr,
          (backend_alloc s size align opt priv be).usraddr⟩ be.tsearch_node priv.root
        = .inserted root1 ∧
      alloc_by s size align opt b (some priv) be
        = .done ((backend_alloc s size align opt priv be).usraddr, B) (some priv1) calls ∧
      priv1.root = root1) := by
  cases s with
  | vcsm =>
    rcases alloc_vcsm_cases size align opt b priv be with ⟨c, hc⟩ | ⟨root1, c, he, ht, hc⟩
    · exact Or.inl ⟨c, priv, hc, rfl⟩
    · exact Or.inr ⟨root1, _, _, c, he, ht, hc, rfl⟩
  | mailbox =>
    rcases alloc_mailbox_cases size align opt b priv be with
      ⟨c, p1, hc, hroot, _, _⟩ | ⟨root1, c, he, ht, _, _, _, hc⟩
    · exact Or.inl ⟨c, p1, hc, hroot⟩
    · exact Or.inr ⟨root1, _, _, c, he, ht, hc, rfl⟩

theorem next_some (op : Op) (be : Backend) (priv : rpimemmgr_priv) :
    ∃ priv1, op.next (some priv) be = some priv1 := by
  cases op with
  | alloc s size align opt b =>
    rcases alloc_registry s size align opt b priv be with
      ⟨c, p1, hc, _⟩ | ⟨root1, B, p1, c, _, _, hc, _⟩
    · exact ⟨p1, by simp only [Op.next, hc, Outcome.sp_after]⟩
    · exact ⟨p1, by simp only [Op.next, hc, Outcome.sp_after]⟩
  | free usraddr =>
    obtain ⟨ret, root1, c, hc⟩ := free_frame usraddr priv be
    exact ⟨{ priv with root := root1 }, by simp only [Op.next, hc, Outcome.sp_after]⟩

theorem run_some (steps : List (Op × Backend)) (priv : rpimemmgr_priv) (live : List Nat) :
    ∃ priv1, (run steps (some priv, live)).1 = some priv1 := by
  induction steps generalizing priv live with
  | nil => exact ⟨priv, rfl⟩
  | cons step rest ih =>
    obtain ⟨p1, hn⟩ := next_some step.1 step.2 priv
    simp only [run, hn]
    exact ih p1 _

/-- The two runs thread the same handle state. -/
theorem run_strategies_state (steps : List (Op × Backend)) (sp : Option rpimemmgr_priv)
    (held : List (Nat × Strategy)) (live : List Nat) :
    (run_strategies steps (sp, held)).1 = (run steps (sp, live)).1 := by
  induction steps generalizing sp held live with
  | nil => rfl
  | cons step rest ih =>
    simp only [run_strategies, run]
    exact ih _ _ _

theorem tag_valid (s : Strategy) :
    s.tag ≠ 0 ∧ (s.tag = MEM_TYPE_VCSM ∨ s.tag = MEM_TYPE_MAILBOX) := by
  cases s
  · exact ⟨by decide, Or.inl rfl⟩
  · exact ⟨by decide, Or.inr rfl⟩

theorem tag_injective (s1 s2 : Strategy) (h : s1.tag = s2.tag) : s1 = s2 := by
  cases s1 <;> cases s2 <;> first | rfl | exact absurd h (by decide)

/-- One call keeps the registry ordered and its records tagged with one of
the two back end tags. -/
theorem step_tags (op : Op) (be : Backend) (priv priv1 : rpimemmgr_priv)
    (ho : Ordered priv.root) (ht : TagsValid priv.root)
    (hn : op.next (some priv) be = some priv1) :
    Ordered priv1.root ∧ TagsValid priv1.root := by
  cases op with
  | alloc s size align opt b =>
    rcases alloc_registry s size align opt b priv be with
      ⟨c, p1, hc, hroot⟩ | ⟨root1, B, p1, c, _, hts, hc, hroot⟩
    · simp only [Op.next, hc, Outcome.sp_after, Option.some.injEq] at hn
      subst hn
      rw [hroot]; exact ⟨ho, ht⟩
    · simp only [Op.next, hc, Outcome.sp_after, Option.some.injEq] at hn
      subst hn
      rw [hroot]
      refine ⟨tsearch_inserted_ordered _ _ _ _ ho hts, ?_⟩
      intro ep hep
      rcases (tsearch_inserted_toList _ _ _ _ hts ep).1 hep with rfl | hold
      · exact (tag_valid s).2
      · exact ht ep hold
  | free usraddr =>
    rcases free_cases usraddr priv be ho with ⟨_, hc⟩ | ⟨e1, root1, ret, c, _, _, hd, hc⟩
    · simp only [Op.next, hc, Outcome.sp_after, Option.some.injEq] at hn
      subst hn
      exact ⟨ho, ht⟩
    · simp only [Op.next, hc, Outcome.sp_after, Option.some.injEq] at hn
      subst hn
      refine ⟨tdelete_ordered _ _ _ ho hd, ?_⟩
      intro ep hep
      have hep1 : ep ∈ root1.toList := hep
      rw [tdelete_toList e1 priv.root root1 ho hd, List.mem_filter] at hep1
      exact ht ep hep1.1

/-- In every state reached from `rpimemmgr_init` the registry is ordered and
every record carries one of the two back end tags. -/
theorem reachable_tags (be0 : Backend) (steps : List (Op × Backend)) (priv : rpimemmgr_priv)
    (hrun : (run steps ((rpimemmgr_init false be0).sp_after, [])).1 = some priv) :
    Ordered priv.root ∧ TagsValid priv.root := by
  refine reachable_induction (fun p => Ordered p.root ∧ TagsValid p.root) ?_ ?_
    be0 steps priv hrun
  · exact ⟨by simp [Ordered, node.keys, node.toList], by simp [TagsValid, node.toList]⟩
  · intro op be p p1 hp hn
    exact step_tags op be p p1 hp.1 hp.2 hn

/-- One call keeps the notes of addresses and strategies in step with the
records of the registry and their tags. -/
theorem step_strategies (op : Op) (be : Backend) (priv : rpimemmgr_priv)
    (held : List (Nat × Strategy)) (ho : Ordered priv.root)
    (h1 : ∀ ep ∈ priv.root.toList, ∃ s, (ep.usraddr, s) ∈ held ∧ ep.type = s.tag)
    (h2 : ∀ u s, (u, s) ∈ held → ∃ ep ∈ priv.root.toList, ep.usraddr = u ∧ ep.type = s.tag) :
    ∃ priv1, op.next (some priv) be = some priv1 ∧ Ordered priv1.root ∧
      (∀ ep ∈ priv1.root.toList,
        ∃ s, (ep.usraddr, s) ∈ op.track_strategy (some priv) be held ∧ ep.type = s.tag) ∧
      (∀ u s, (u, s) ∈ op.track_strategy (some priv) be held →
        ∃ ep ∈ priv1.root.toList, ep.usraddr = u ∧ ep.type = s.tag) := by
  cases op with
  | alloc s size align opt b =>
    rcases alloc_outcome s size align opt b priv be with
      ⟨hf, c, p1, hc, hroot, _, _⟩ | ⟨hok, root1, B, p1, c, hts, hc, hroot⟩
    · refine ⟨p1, by simp only [Op.next, hc, Outcome.sp_after], by rw [hroot]; exact ho, ?_, ?_⟩
      · simp only [Op.track_strategy, if_pos hf, hroot]
        exact h1
      · simp only [Op.track_strategy, if_pos hf, hroot]
        exact h2
    · refine ⟨p1, by simp only [Op.next, hc, Outcome.sp_after],
        by rw [hroot]; exact tsearch_inserted_ordered _ _ _ _ ho hts, ?_, ?_⟩
      · intro ep hep
        rw [hroot] at hep
        simp only [Op.track_strategy, if_neg hok, hc, Outcome.returned, List.mem_cons]
        rcases (tsearch_inserted_toList _ _ _ _ hts ep).1 hep with rfl | hold
        · exact ⟨s, Or.inl rfl, rfl⟩
        · obtain ⟨s0, hs0, hty⟩ := h1 ep hold
          exact ⟨s0, Or.inr hs0, hty⟩
      · intro u s0 hus
        rw [hroot]
        simp only [Op.track_strategy, if_neg hok, hc, Outcome.returned, List.mem_cons,
          Prod.mk.injEq] at hus
        rcases hus with ⟨rfl, rfl⟩ | hold
        · exact ⟨_, (tsearch_inserted_toList _ _ _ _ hts _).2 (Or.inl rfl), rfl, rfl⟩
        · obtain ⟨ep, hep, hu, hty⟩ := h2 u s0 hold
          exact ⟨ep, (tsearch_inserted_toList _ _ _ _ hts _).2 (Or.inr hep), hu, hty⟩
  | free usraddr =>
    rcases free_cases usraddr priv be ho with ⟨hn, hc⟩ | ⟨e1, root1, ret, c, _, he1, hd, hc⟩
    · refine ⟨priv, by simp only [Op.next, hc, Outcome.sp_after], ho, ?_, ?_⟩
      · intro ep hep
        obtain ⟨s0, hs0, hty⟩ := h1 ep hep
        refine ⟨s0, ?_, hty⟩
        simp only [Op.track_strategy, List.mem_filter, decide_eq_true_eq]
        exact ⟨hs0, fun h => hn ((mem_keys_iff _ _).2 ⟨ep, hep, h⟩)⟩
      · intro u s0 hus
        simp only [Op.track_strategy, List.mem_filter] at hus
        exact h2 u s0 hus.1
    · have hmem : ∀ ep, ep ∈ root1.toList ↔ ep ∈ priv.root.toList ∧ ep.usraddr ≠ usraddr := by
        intro ep
        rw [tdelete_toList e1 priv.root root1 ho hd, List.mem_filter, he1]
        simp
      refine ⟨{ priv with root := root1 }, by simp only [Op.next, hc, Outcome.sp_after],
        tdelete_ordered _ _ _ ho hd, ?_, ?_⟩
      · intro ep hep
        obtain ⟨hold, hne⟩ := (hmem ep).1 hep
        obtain ⟨s0, hs0, hty⟩ := h1 ep hold
        refine ⟨s0, ?_, hty⟩
        simp only [Op.track_strategy, List.mem_filter, decide_eq_true_eq]
        exact ⟨hs0, hne⟩
      · intro u s0 hus
        simp only [Op.track_strategy, List.mem_filter, decide_eq_true_eq] at hus
        obtain ⟨ep, hep, hu, hty⟩ := h2 u s0 hus.1
        exact ⟨ep, (hmem ep).2 ⟨hep, by rw [hu]; exact hus.2⟩, hu, hty⟩

/-- A sequence of calls keeps the notes of addresses and strategies in step
with the records of the registry and their tags. -/
theorem run_strategies_invariant (steps : List (Op × Backend)) (priv : rpimemmgr_priv)
    (held : List (Nat × Strategy)) (ho : Ordered priv.root)
    (h1 : ∀ ep ∈ priv.root.toList, ∃ s, (ep.usraddr, s) ∈ held ∧ ep.type = s.tag)
    (h2 : ∀ u s, (u, s) ∈ held → ∃ ep ∈ priv.root.toList, ep.usraddr = u ∧ ep.type = s.tag) :
    ∃ priv1 held1, run_strategies steps (some priv, held) = (some priv1, held1) ∧
      Ordered priv1.root ∧
      (∀ ep ∈ priv1.root.toList, ∃ s, (ep.usraddr, s) ∈ held1 ∧ ep.type = s.tag) ∧
      (∀ u s, (u, s) ∈ held1 → ∃ ep ∈ priv1.root.toList, ep.usraddr = u ∧ ep.type = s.tag) := by
  induction steps generalizing priv held with
  | nil => exact ⟨priv, held, rfl, ho, h1, h2⟩
  | cons step rest ih =>
    obtain ⟨p1, hn, ho1, h11, h21⟩ := step_strategies step.1 step.2 priv held ho h1 h2
    obtain ⟨p2, l2, hr, ho2, h12, h22⟩ := ih p1 _ ho1 h11 h21
    refine ⟨p2, l2, ?_, ho2, h12, h22⟩
    simp only [run_strategies, hn]
    exact hr

/-- An ordered registry holds at most one record for each user address. -/
theorem ordered_unique (t : node) (ho : Ordered t) (e1 e2 : mem_elem)
    (h1 : e1 ∈ t.toList) (h2 : e2 ∈ t.toList) (h : e1.usraddr = e2.usraddr) : e1 = e2 := by
  have f1 := tfind_of_mem e1 t ho e1 h1 rfl
  have f2 := tfind_of_mem e1 t ho e2 h2 h.symm
  rw [f1] at f2
  exact Option.some.inj f2

/-! ## Live addresses, whatever the collaborators answer -/

/-- One call keeps the registry ordered and keeps the caller's live addresses
equal to the non-null keys of the registry. -/
theorem step_live (op : Op) (be : Backend) (priv : rpimemmgr_priv) (live : List Nat)
    (ho : Ordered priv.root) (hl : ∀ a, a ∈ live ↔ a ∈ priv.root.keys ∧ a ≠ 0) :
    ∃ priv1, op.next (some priv) be = some priv1 ∧ Ordered priv1.root ∧
      ∀ a, a ∈ op.track (some priv) be live ↔ a ∈ priv1.root.keys ∧ a ≠ 0 := by
  cases op with
  | alloc s size align opt b =>
    rcases alloc_registry s size align opt b priv be with
      ⟨c, p1, hc, hroot⟩ | ⟨root1, B, p1, c, _, hts, hc, hroot⟩
    · refine ⟨p1, by simp only [Op.next, hc, Outcome.sp_after], by rw [hroot]; exact ho, ?_⟩
      simp only [Op.track, hc, Outcome.returned, ne_eq, not_true_eq_false, if_false, hroot]
      exact hl
    · refine ⟨p1, by simp only [Op.next, hc, Outcome.sp_after],
        by rw [hroot]; exact tsearch_inserted_ordered _ _ _ _ ho hts, ?_⟩
      intro a
      rw [hroot, tsearch_inserted_keys _ _ _ _ hts a]
      by_cases hU : (backend_alloc s size align opt priv be).usraddr = 0
      · simp only [Op.track, hc, Outcome.returned, ne_eq, hU, not_true_eq_false, if_false]
        rw [hl a]
        constructor
        · exact fun h => ⟨Or.inr h.1, h.2⟩
        · rintro ⟨h | h, hne⟩
          · exact absurd h hne
          · exact ⟨h, hne⟩
      · simp only [Op.track, hc, Outcome.returned, ne_eq, hU, not_false_eq_true, if_true,
          List.mem_cons]
        rw [hl a]
        constructor
        · rintro (h | h)
          · exact ⟨Or.inl h, by rw [h]; exact hU⟩
          · exact ⟨Or.inr h.1, h.2⟩
        · rintro ⟨h | h, hne⟩
          · exact Or.inl h
          · exact Or.inr ⟨h, hne⟩
  | free usraddr =>
    rcases free_cases usraddr priv be ho with ⟨hn, hc⟩ | ⟨ep, root1, ret, c, _, hep, hd, hc⟩
    · refine ⟨priv, by simp only [Op.next, hc, Outcome.sp_after], ho, ?_⟩
      intro a
      simp only [Op.track, List.mem_filter, decide_eq_true_eq, hl a]
      constructor
      · exact fun h => h.1
      · exact fun h => ⟨h, fun hh => hn (hh ▸ h.1)⟩
    · refine ⟨{ priv with root := root1 }, by simp only [Op.next, hc, Outcome.sp_after],
        tdelete_ordered _ _ _ ho hd, ?_⟩
      intro a
      simp only [Op.track, List.mem_filter, decide_eq_true_eq, hl a]
      rw [tdelete_keys ep priv.root root1 ho hd a, hep]
      tauto

/-- A sequence of calls keeps the caller's live addresses equal to the
non-null keys of the registry. -/
theorem run_live (steps : List (Op × Backend)) (priv : rpimemmgr_priv) (live : List Nat)
    (ho : Ordered priv.root) (hl : ∀ a, a ∈ live ↔ a ∈ priv.root.keys ∧ a ≠ 0) :
    ∃ priv1 live1, run steps (some priv, live) = (some priv1, live1) ∧ Ordered priv1.root ∧
      ∀ a, a ∈ live1 ↔ a ∈ priv1.root.keys ∧ a ≠ 0 := by
  induction steps generalizing priv live with
  | nil => exact ⟨priv, live, rfl, ho, hl⟩
  | cons step rest ih =>
    obtain ⟨p1, hn, ho1, hl1⟩ := step_live step.1 step.2 priv live ho hl
    obtain ⟨p2, l2, hr, ho2, hl2⟩ := ih p1 _ ho1 hl1
    refine ⟨p2, l2, ?_, ho2, hl2⟩
    simp only [run, hn]
    exact hr

/-- Open calls of one mailbox alloc: `mailbox_open` is called exactly when the
control handle is unset, the open of `/dev/mem` exactly when the mapping handle
is unset and the call gets past the control resource. -/
theorem alloc_mailbox_open_counts (size align flags : Nat) (b : Bool) (priv : rpimemmgr_priv)
    (be : Backend) :
    (rpimemmgr_alloc_mailbox size align flags b (some priv) be).calls_made.count
        Call.mailbox_open = (if priv.fd_mb = -1 then 1 else 0) ∧
    (rpimemmgr_alloc_mailbox size align flags b (some priv) be).calls_made.count
        Call.open_dev_mem =
      (if priv.fd_mem = -1 ∧ ¬ (priv.fd_mb = -1 ∧ be.mailbox_open = -1) then 1 else 0) := by
  unfold rpimemmgr_alloc_mailbox
  by_cases hb : priv.fd_mb = -1 <;> by_cases ho : be.mailbox_open = -1 <;>
    by_cases hm : priv.fd_mem = -1 <;> by_cases hd : be.open_dev_mem = -1 <;>
    simp only [hb, ho, hm, hd, and_self, and_true, and_false, true_and, false_and,
      not_true_eq_false, not_false_eq_true, if_true, if_false] <;>
    (try split_ifs) <;> simp [Outcome.calls_made]

/-! ## Results -/

/-- C1, as amended: for every sequence of alloc (either strategy) and free
calls run from a freshly initialised manager, whatever the collaborators
answer, every call returns, and the set of non-null user addresses held in the
registry is exactly the set of addresses returned by successful allocs and not
passed to `rpimemmgr_free` since.  When moreover no backend allocate reports
success with a null user address, the registry holds no other address. -/
theorem registry_tracks_live_allocations (be0 : Backend) (steps : List (Op × Backend))
    (h0 : be0.malloc = true) :
    ∃ priv live, run steps ((rpimemmgr_init false be0).sp_after, []) = (some priv, live) ∧
      (∀ a, a ∈ live ↔ a ∈ priv.root.keys ∧ a ≠ 0) ∧
      ((∀ s ∈ steps, s.2.addr_nonnull) → ∀ a, a ∈ priv.root.keys ↔ a ∈ live) := by
  have hinit : (rpimemmgr_init false be0).sp_after = some ⟨false, -1, -1, .nil⟩ := by
    simp [rpimemmgr_init, h0, Outcome.sp_after]
  rw [hinit]
  obtain ⟨p, l, hr, _, hl⟩ := run_live steps ⟨false, -1, -1, .nil⟩ []
    (by simp [Ordered, node.keys, node.toList]) (by simp [node.keys, node.toList])
  refine ⟨p, l, hr, hl, ?_⟩
  intro hbe
  obtain ⟨p1, l1, hr1, _, hl1⟩ := run_invariant steps ⟨false, -1, -1, .nil⟩ [] hbe
    (by simp [Ordered, node.keys, node.toList]) (by simp [node.keys, node.toList])
  rw [hr] at hr1
  simp only [Prod.mk.injEq, Option.some.injEq] at hr1
  rw [hr1.1, hr1.2]
  exact hl1

theorem registry_tracks_live_allocations_witness :
    ∃ priv live,
      run [(Op.alloc .vcsm 4096 4096 0 true, sample_backend),
           (Op.alloc .mailbox 64 4096 0 false, sample_backend),
           (Op.alloc .vcsm 4096 4096 0 true, null_success_backend),
           (Op.alloc .vcsm 4096 4096 0 true, failing_alloc_backend),
           (Op.free 4096, failing_release_backend),
           (Op.free 12288, sample_backend)]
          ((rpimemmgr_init false sample_backend).sp_after, []) = (some priv, live) ∧
      (∀ a, a ∈ live ↔ a ∈ priv.root.keys ∧ a ≠ 0) ∧
      ((∀ s ∈ [(Op.alloc .vcsm 4096 4096 0 true, sample_backend),
           (Op.alloc .mailbox 64 4096 0 false, sample_backend),
           (Op.alloc .vcsm 4096 4096 0 true, null_success_backend),
           (Op.alloc .vcsm 4096 4096 0 true, failing_alloc_backend),
           (Op.free 4096, failing_release_backend),
           (Op.free 12288, sample_backend)], s.2.addr_nonnull) →
        ∀ a, a ∈ priv.root.keys ↔ a ∈ live) :=
  registry_tracks_live_allocations sample_backend _ rfl

/-- C1 as stated fails: when the shared backend allocate reports success with
the null user address, `rpimemmgr_alloc_vcsm` registers a record under address
0 and returns it, which the caller reads as `NULL`; the registry then holds
the address 0 while no successful alloc has returned any address. -/
theorem null_address_registered :
    rpimemmgr_alloc_vcsm 4096 4096 0 false (some fresh) null_success_backend
      = .done (0, none)
          (some ⟨false, -1, -1, .mk .nil ⟨MEM_TYPE_VCSM, 4096, 7, 3221225472, 0⟩ .nil⟩)
          [Call.vcsm_init, Call.alloc_mem_vcsm 4096 4096 0] ∧
    run [(Op.alloc .vcsm 4096 4096 0 false, null_success_backend)]
        ((rpimemmgr_init false sample_backend).sp_after, [])
      = (some ⟨false, -1, -1, .mk .nil ⟨MEM_TYPE_VCSM, 4096, 7, 3221225472, 0⟩ .nil⟩, []) ∧
    (0 : Nat) ∈ (node.mk .nil ⟨MEM_TYPE_VCSM, 4096, 7, 3221225472, 0⟩ .nil).keys ∧
    (0 : Nat) ∉ ([] : List Nat) := by
  decide

/-- C2: freeing an address that is not a key of the registry returns the
not-found error 1, calls no collaborator (so no release primitive) and leaves
the whole manager state, registry and resource handles included, unchanged. -/
theorem free_unregistered_not_found (usraddr : Nat) (priv : rpimemmgr_priv) (be : Backend)
    (h : usraddr ∉ priv.root.keys) :
    rpimemmgr_free usraddr (some priv) be = .done 1 (some priv) [] := by
  unfold rpimemmgr_free
  dsimp only
  rw [tfind_none_of_not_mem ⟨0, 0, 0, 0, usraddr⟩ priv.root h]

theorem free_unregistered_not_found_witness :
    (12288 : Nat) ∉ (node.mk .nil sample_vcsm_elem (.mk .nil sample_mailbox_elem .nil)).keys ∧
    rpimemmgr_free 12288
        (some ⟨false, 3, 4, .mk .nil sample_vcsm_elem (.mk .nil sample_mailbox_elem .nil)⟩)
        failing_release_backend
      = .done 1
        (some ⟨false, 3, 4, .mk .nil sample_vcsm_elem (.mk .nil sample_mailbox_elem .nil)⟩) [] :=
  ⟨by decide,
   free_unregistered_not_found 12288
     ⟨false, 3, 4, .mk .nil sample_vcsm_elem (.mk .nil sample_mailbox_elem .nil)⟩
     failing_release_backend (by decide)⟩

/-- C3: round trip.  When an alloc operation of either strategy returns a
non-null address `U`, a `rpimemmgr_free(U)` that follows at once, against
collaborators whose release succeeds, returns 0 and leaves a registry with the
same content as before the alloc. -/
theorem alloc_free_round_trip (s : Strategy) (size align opt : Nat) (b : Bool)
    (priv priv1 : rpimemmgr_priv) (be1 be2 : Backend) (U : Nat) (B : Option Nat)
    (calls : List Call)
    (halloc : alloc_by s size align opt b (some priv) be1 = .done (U, B) (some priv1) calls)
    (hU : U ≠ 0)
    (hv : ∀ handle usraddr, be2.free_mem_vcsm handle usraddr = 0)
    (hm : ∀ fd size handle busaddr usraddr,
      be2.free_mem_mailbox fd size handle busaddr usraddr = 0) :
    ∃ priv2 calls2, rpimemmgr_free U (some priv1) be2 = .done 0 (some priv2) calls2 ∧
      priv2.root.toList = priv.root.toList := by
  have key : ∃ ep root1, ep.usraddr = U ∧ (ep.type = MEM_TYPE_VCSM ∨ ep.type = MEM_TYPE_MAILBOX) ∧
      tsearch ep be1.tsearch_node priv.root = .inserted root1 ∧ priv1.root = root1 := by
    cases s with
    | vcsm =>
      rcases alloc_vcsm_cases size align opt b priv be1 with ⟨c, hc⟩ | ⟨root1, c, _, ht, hc⟩
      · simp only [alloc_by] at halloc
        rw [hc] at halloc
        simp only [Outcome.done.injEq, Prod.mk.injEq] at halloc
        exact absurd halloc.1.1.symm hU
      · simp only [alloc_by] at halloc
        rw [hc] at halloc
        simp only [Outcome.done.injEq, Prod.mk.injEq, Option.some.injEq] at halloc
        refine ⟨_, root1, halloc.1.1, Or.inl rfl, ht, ?_⟩
        rw [← halloc.2.1]
    | mailbox =>
      rcases alloc_mailbox_cases size align opt b priv be1 with
        ⟨c, p1, hc, _⟩ | ⟨root1, c, _, ht, _, _, _, hc⟩
      · simp only [alloc_by] at halloc
        rw [hc] at halloc
        simp only [Outcome.done.injEq, Prod.mk.injEq] at halloc
        exact absurd halloc.1.1.symm hU
      · simp only [alloc_by] at halloc
        rw [hc] at halloc
        simp only [Outcome.done.injEq, Prod.mk.injEq, Option.some.injEq] at halloc
        refine ⟨_, root1, halloc.1.1, Or.inr rfl, ht, ?_⟩
        rw [← halloc.2.1]
  obtain ⟨ep, root1, hep, hty, ht, hroot⟩ := key
  have hfind : tfind ⟨0, 0, 0, 0, U⟩ priv1.root = some ep := by
    rw [hroot, tfind_congr ⟨0, 0, 0, 0, U⟩ ep hep.symm]
    exact tsearch_inserted_tfind ep _ _ _ ht
  have hdel : tdelete ep priv1.root = some priv.root := by
    rw [hroot]; exact tsearch_inserted_tdelete ep _ _ _ ht
  unfold rpimemmgr_free
  dsimp only
  rw [hfind]
  dsimp only
  rw [free_elem_found ep priv1 be2 priv.root hdel]
  rcases hty with hty | hty
  · rw [if_pos hty]
    refine ⟨{ priv1 with root := priv.root }, [Call.free_mem_vcsm ep.handle ep.usraddr],
      ?_, rfl⟩
    rw [hv]
  · have hne : ¬ ep.type = MEM_TYPE_VCSM := by rw [hty]; decide
    rw [if_neg hne, if_pos hty]
    refine ⟨{ priv1 with root := priv.root },
      [Call.free_mem_mailbox priv1.fd_mb ep.size ep.handle ep.busaddr ep.usraddr], ?_, rfl⟩
    rw [hm]

theorem alloc_free_round_trip_witness :
    ∃ priv2 calls2,
      rpimemmgr_free 8192
          (some ⟨false, 3, 4, .mk .nil sample_vcsm_elem (.mk .nil sample_mailbox_elem .nil)⟩)
          sample_backend = .done 0 (some priv2) calls2 ∧
      priv2.root.toList = (node.mk .nil sample_vcsm_elem .nil).toList :=
  alloc_free_round_trip .mailbox 64 4096 0 true
    ⟨false, -1, -1, .mk .nil sample_vcsm_elem .nil⟩
    ⟨false, 3, 4, .mk .nil sample_vcsm_elem (.mk .nil sample_mailbox_elem .nil)⟩
    sample_backend sample_backend 8192 (some 1073741824)
    [Call.mailbox_open, Call.open_dev_mem, Call.alloc_mem_mailbox 3 4 64 4096 0]
    (by decide) (by decide) (fun _ _ => rfl) (fun _ _ _ _ _ => rfl)

/-- C4: on a manager whose records carry valid tags and whose resource closes
succeed, `rpimemmgr_finalize` returns, leaves the registry empty, and its
result is non-zero if and only if the number `K` of records whose backend
release fails is positive. -/
theorem finalize_sweeps_registry (priv : rpimemmgr_priv) (be : Backend)
    (htags : TagsValid priv.root)
    (hmb : priv.fd_mb ≠ -1 → be.mailbox_close priv.fd_mb = 0)
    (hmem : priv.fd_mem ≠ -1 → be.close priv.fd_mem = 0) :
    ∃ ret priv1 calls, rpimemmgr_finalize (some priv) be = .done ret (some priv1) calls ∧
      priv1.root = .nil ∧
      (ret ≠ 0 ↔
        0 < priv.root.toList.countP (fun ep => release_result be priv.fd_mb ep ≠ 0)) := by
  refine ⟨_, _, _, rfl, ?_, ?_⟩
  · rw [free_all_elems_root]
  · have hres := free_all_elems_loop_result priv.root.size 0 priv be (le_refl _) htags
    rw [free_all_elems_root]
    dsimp only
    have e1 : (if priv.fd_mb ≠ -1 then
          (if be.mailbox_close priv.fd_mb ≠ 0 then be.mailbox_close priv.fd_mb
            else (if (free_all_elems priv be).1 ≠ 0 then (free_all_elems priv be).1 else 0))
        else (if (free_all_elems priv be).1 ≠ 0 then (free_all_elems priv be).1 else 0))
        = (free_all_elems priv be).1 := by
      have e0 : (if (free_all_elems priv be).1 ≠ 0 then (free_all_elems priv be).1 else 0)
          = (free_all_elems priv be).1 := by
        split_ifs with h0
        · rfl
        · exact (not_not.1 h0).symm
      by_cases h : priv.fd_mb ≠ -1
      · rw [if_pos h, hmb h, e0]; simp
      · rw [if_neg h, e0]
    rw [e1]
    have e2 : (if priv.fd_mem ≠ -1 then
          (if be.close priv.fd_mem ≠ 0 then be.close priv.fd_mem
            else (free_all_elems priv be).1)
        else (free_all_elems priv be).1) = (free_all_elems priv be).1 := by
      by_cases h : priv.fd_mem ≠ -1
      · rw [if_pos h, hmem h]; simp
      · rw [if_neg h]
    rw [e2, List.countP_pos_iff]
    unfold free_all_elems
    rw [hres]
    simp

theorem finalize_sweeps_registry_witness :
    ∃ ret priv1 calls,
      rpimemmgr_finalize
          (some ⟨false, 3, 4, .mk .nil sample_vcsm_elem (.mk .nil sample_mailbox_elem .nil)⟩)
          failing_vcsm_release_backend = .done ret (some priv1) calls ∧
      priv1.root = .nil ∧
      (ret ≠ 0 ↔
        0 < (node.mk .nil sample_vcsm_elem (.mk .nil sample_mailbox_elem .nil)).toList.countP
          (fun ep => release_result failing_vcsm_release_backend 3 ep ≠ 0)) :=
  finalize_sweeps_registry
    ⟨false, 3, 4, .mk .nil sample_vcsm_elem (.mk .nil sample_mailbox_elem .nil)⟩
    failing_vcsm_release_backend (by decide) (fun _ => rfl) (fun _ => rfl)

/-- C5, as amended: an alloc call that fails at any of its failure points
(subsystem initialisation, resource open, backend allocate, registration)
returns `NULL` and leaves the registry and the subsystem-initialised flag as
they were.  A failed `rpimemmgr_alloc_vcsm` leaves the whole state as it was; a
failed `rpimemmgr_alloc_mailbox` leaves the two resource handles either as they
were or both unset (-1), and both unset when both were open before the call. -/
theorem failed_alloc_frame (s : Strategy) (size align opt : Nat) (b : Bool)
    (priv : rpimemmgr_priv) (be : Backend)
    (hfail : alloc_fails s size align opt priv be) :
    ∃ calls priv1,
      alloc_by s size align opt b (some priv) be = .done (0, none) (some priv1) calls ∧
      priv1.root = priv.root ∧
      priv1.is_vcsm_inited = priv.is_vcsm_inited ∧
      (s = .vcsm → priv1 = priv) ∧
      (priv1 = priv ∨ (priv1.fd_mb = -1 ∧ priv1.fd_mem = -1)) ∧
      (s = .mailbox → priv.fd_mb ≠ -1 → priv.fd_mem ≠ -1 →
        priv1.fd_mb = -1 ∧ priv1.fd_mem = -1) := by
  rcases alloc_outcome s size align opt b priv be with
    ⟨_, calls, priv1, hc, hroot, hflag, hfd⟩ | ⟨hok, _⟩
  · refine ⟨calls, priv1, hc, hroot, hflag, ?_, ?_, ?_⟩
    · intro hs
      rcases hfd with ⟨_, h⟩ | ⟨hm, _⟩
      · exact h
      · rw [hs] at hm; cases hm
    · rcases hfd with ⟨_, h⟩ | ⟨_, ⟨h, _⟩ | h⟩
      · exact Or.inl h
      · exact Or.inl h
      · exact Or.inr h
    · intro hs hmb _
      rcases hfd with ⟨hv, _⟩ | ⟨_, ⟨_, h⟩ | h⟩
      · rw [hs] at hv; cases hv
      · exact absurd h hmb
      · exact h
  · exact absurd hfail hok

theorem failed_alloc_frame_witness :
    ∃ calls priv1,
      alloc_by .mailbox 64 4096 0 false
          (some ⟨false, 3, 4, .mk .nil sample_mailbox_elem .nil⟩) failing_alloc_backend
        = .done (0, none) (some priv1) calls ∧
      priv1.root = .mk .nil sample_mailbox_elem .nil ∧
      priv1.is_vcsm_inited = false ∧
      (Strategy.mailbox = .vcsm →
        priv1 = ⟨false, 3, 4, .mk .nil sample_mailbox_elem .nil⟩) ∧
      (priv1 = ⟨false, 3, 4, .mk .nil sample_mailbox_elem .nil⟩ ∨
        (priv1.fd_mb = -1 ∧ priv1.fd_mem = -1)) ∧
      (Strategy.mailbox = .mailbox → (3 : Int) ≠ -1 → (4 : Int) ≠ -1 →
        priv1.fd_mb = -1 ∧ priv1.fd_mem = -1) :=
  failed_alloc_frame .mailbox 64 4096 0 false
    ⟨false, 3, 4, .mk .nil sample_mailbox_elem .nil⟩ failing_alloc_backend (by decide)

/-- C5 as stated fails: from a fresh manager, a successful mailbox alloc opens
the handles 3 and 4; a following mailbox alloc that fails at the backend
allocate returns `NULL` and leaves both handles unset, not as they were. -/
theorem failed_alloc_mailbox_changes_handles :
    rpimemmgr_alloc_mailbox 64 4096 0 false (some fresh) sample_backend
      = .done (8192, none) (some ⟨false, 3, 4, .mk .nil sample_mailbox_elem .nil⟩)
          [Call.mailbox_open, Call.open_dev_mem, Call.alloc_mem_mailbox 3 4 64 4096 0] ∧
    rpimemmgr_alloc_mailbox 64 4096 0 false
        (some ⟨false, 3, 4, .mk .nil sample_mailbox_elem .nil⟩) failing_alloc_backend
      = .done (0, none) (some ⟨false, -1, -1, .mk .nil sample_mailbox_elem .nil⟩)
          [Call.alloc_mem_mailbox 3 4 64 4096 0, Call.close 4, Call.mailbox_close 3] ∧
    (⟨false, -1, -1, .mk .nil sample_mailbox_elem .nil⟩ : rpimemmgr_priv)
      ≠ ⟨false, 3, 4, .mk .nil sample_mailbox_elem .nil⟩ := by
  decide

/-- C6: when `rpimemmgr_alloc_mailbox` reaches the backend allocate (each
resource is open already or its open succeeds) and the backend allocate fails,
the call returns `NULL`, closes both resources and leaves both handles unset
(-1), whether this call opened them or not, and leaves the registry and the
flag unchanged. -/
theorem alloc_mailbox_backend_failure (size align flags : Nat) (b : Bool)
    (priv : rpimemmgr_priv) (be : Backend)
    (hmb : priv.fd_mb = -1 → be.mailbox_open ≠ -1)
    (hmem : priv.fd_mem = -1 → be.open_dev_mem ≠ -1)
    (hfail : (be.alloc_mem_mailbox (lazily_opened priv be).fd_mb (lazily_opened priv be).fd_mem
      size align flags).err ≠ 0) :
    rpimemmgr_alloc_mailbox size align flags b (some priv) be
      = .done (0, none) (some { priv with fd_mb := -1, fd_mem := -1 })
          ((if priv.fd_mb = -1 then [Call.mailbox_open] else []) ++
           (if priv.fd_mem = -1 then [Call.open_dev_mem] else []) ++
           [Call.alloc_mem_mailbox (lazily_opened priv be).fd_mb (lazily_opened priv be).fd_mem
              size align flags] ++
           [Call.close (lazily_opened priv be).fd_mem,
            Call.mailbox_close (lazily_opened priv be).fd_mb]) := by
  unfold rpimemmgr_alloc_mailbox
  dsimp only
  have h1 : ¬ (priv.fd_mb = -1 ∧ be.mailbox_open = -1) := fun h => hmb h.1 h.2
  rw [if_neg h1]
  have e1 : (if priv.fd_mb = -1 then { priv with fd_mb := be.mailbox_open } else priv)
      = { priv with fd_mb := (lazily_opened priv be).fd_mb } := by
    unfold lazily_opened; split_ifs <;> rfl
  rw [e1]
  dsimp only
  have h2 : ¬ (priv.fd_mem = -1 ∧ be.open_dev_mem = -1) := fun h => hmem h.1 h.2
  rw [if_neg h2]
  have e2 : (if priv.fd_mem = -1 then
        ({ is_vcsm_inited := priv.is_vcsm_inited, fd_mb := (lazily_opened priv be).fd_mb,
           fd_mem := be.open_dev_mem, root := priv.root } : rpimemmgr_priv)
      else { priv with fd_mb := (lazily_opened priv be).fd_mb })
      = lazily_opened priv be := by
    unfold lazily_opened; split_ifs <;> rfl
  rw [e2, if_pos hfail]
  rfl

theorem alloc_mailbox_backend_failure_witness :
    rpimemmgr_alloc_mailbox 64 4096 0 true (some fresh) failing_alloc_backend
      = .done (0, none) (some { fresh with fd_mb := -1, fd_mem := -1 })
          ((if fresh.fd_mb = -1 then [Call.mailbox_open] else []) ++
           (if fresh.fd_mem = -1 then [Call.open_dev_mem] else []) ++
           [Call.alloc_mem_mailbox (lazily_opened fresh failing_alloc_backend).fd_mb
              (lazily_opened fresh failing_alloc_backend).fd_mem 64 4096 0] ++
           [Call.close (lazily_opened fresh failing_alloc_backend).fd_mem,
            Call.mailbox_close (lazily_opened fresh failing_alloc_backend).fd_mb]) :=
  alloc_mailbox_backend_failure 64 4096 0 true fresh failing_alloc_backend
    (fun _ => by decide) (fun _ => by decide) (by decide)

/-- C7, as amended: for every manager state and every pair of consecutive
`rpimemmgr_alloc_mailbox` calls, each resource is opened at most once in total
across the two calls, except exactly in these cases.  `mailbox_open` is called
twice when the control handle was unset before the first call and is unset
again after it (its open failed, or the first call failed later and its
rollback closed it).  The open of `/dev/mem` is called twice when the first
call called it, left the mapping handle unset, and the second call gets past
the control resource.  In particular each is opened at most once when the
first call succeeds. -/
theorem mailbox_opens_at_most_once (size1 align1 flags1 : Nat) (b1 : Bool)
    (size2 align2 flags2 : Nat) (b2 : Bool) (priv priv1 : rpimemmgr_priv)
    (be1 be2 : Backend) (ret : Nat × Option Nat) (calls1 : List Call)
    (h1 : rpimemmgr_alloc_mailbox size1 align1 flags1 b1 (some priv) be1
      = .done ret (some priv1) calls1) :
    ((calls1 ++ (rpimemmgr_alloc_mailbox size2 align2 flags2 b2 (some priv1) be2).calls_made).count
        Call.mailbox_open ≤ 1 ↔ ¬ (priv.fd_mb = -1 ∧ priv1.fd_mb = -1)) ∧
    ((calls1 ++ (rpimemmgr_alloc_mailbox size2 align2 flags2 b2 (some priv1) be2).calls_made).count
        Call.open_dev_mem ≤ 1 ↔
      ¬ (Call.open_dev_mem ∈ calls1 ∧ priv1.fd_mem = -1 ∧
          (priv1.fd_mb = -1 → be2.mailbox_open ≠ -1))) ∧
    (ret.1 ≠ 0 →
      (calls1 ++ (rpimemmgr_alloc_mailbox size2 align2 flags2 b2 (some priv1) be2).calls_made).count
          Call.mailbox_open ≤ 1 ∧
      (calls1 ++ (rpimemmgr_alloc_mailbox size2 align2 flags2 b2 (some priv1) be2).calls_made).count
          Call.open_dev_mem ≤ 1) := by
  have hc1 : calls1
      = (rpimemmgr_alloc_mailbox size1 align1 flags1 b1 (some priv) be1).calls_made := by
    rw [h1]; rfl
  have c1 := alloc_mailbox_open_counts size1 align1 flags1 b1 priv be1
  have c2 := alloc_mailbox_open_counts size2 align2 flags2 b2 priv1 be2
  rw [← hc1] at c1
  have hmemc : Call.open_dev_mem ∈ calls1 ↔
      (priv.fd_mem = -1 ∧ ¬ (priv.fd_mb = -1 ∧ be1.mailbox_open = -1)) := by
    rw [← List.count_pos_iff, c1.2]
    split_ifs with h
    · exact ⟨fun _ => h, fun _ => Nat.one_pos⟩
    · exact ⟨fun hh => absurd hh (lt_irrefl 0), fun hh => absurd hh h⟩
  have hA : (calls1 ++ (rpimemmgr_alloc_mailbox size2 align2 flags2 b2 (some priv1)
        be2).calls_made).count Call.mailbox_open ≤ 1 ↔
      ¬ (priv.fd_mb = -1 ∧ priv1.fd_mb = -1) := by
    rw [List.count_append, c1.1, c2.1]
    by_cases ha : priv.fd_mb = -1 <;> by_cases hb : priv1.fd_mb = -1 <;> simp [ha, hb]
  have hB : (calls1 ++ (rpimemmgr_alloc_mailbox size2 align2 flags2 b2 (some priv1)
        be2).calls_made).count Call.open_dev_mem ≤ 1 ↔
      ¬ (Call.open_dev_mem ∈ calls1 ∧ priv1.fd_mem = -1 ∧
          (priv1.fd_mb = -1 → be2.mailbox_open ≠ -1)) := by
    rw [hmemc, List.count_append, c1.2, c2.2]
    by_cases ha : priv.fd_mem = -1 ∧ ¬ (priv.fd_mb = -1 ∧ be1.mailbox_open = -1)
    · by_cases hb : priv1.fd_mem = -1 ∧ ¬ (priv1.fd_mb = -1 ∧ be2.mailbox_open = -1)
      · rw [if_pos ha, if_pos hb]
        constructor
        · intro h; omega
        · intro h
          exact absurd ⟨ha, hb.1, fun x y => hb.2 ⟨x, y⟩⟩ h
      · rw [if_pos ha, if_neg hb]
        constructor
        · intro _ h
          exact hb ⟨h.2.1, fun x => h.2.2 x.1 x.2⟩
        · intro _; omega
    · rw [if_neg ha]
      constructor
      · intro _ h
        exact ha h.1
      · intro _
        split_ifs <;> omega
  refine ⟨hA, hB, ?_⟩
  intro hret
  rcases alloc_mailbox_cases size1 align1 flags1 b1 priv be1 with
    ⟨c, p1, hc, _⟩ | ⟨root1, c, _, _, hmb, hmem, _, hc⟩
  · rw [hc] at h1
    simp only [Outcome.done.injEq] at h1
    exact absurd (by rw [← h1.1]) hret
  · rw [hc] at h1
    simp only [Outcome.done.injEq, Option.some.injEq] at h1
    obtain ⟨_, hp, _⟩ := h1
    have hmb1 : priv1.fd_mb ≠ -1 := by rw [← hp]; exact hmb
    have hmem1 : priv1.fd_mem ≠ -1 := by rw [← hp]; exact hmem
    exact ⟨hA.2 (fun h => hmb1 h.2), hB.2 (fun h => hmem1 h.2.1)⟩

theorem mailbox_opens_at_most_once_witness :
    (([Call.alloc_mem_mailbox 3 4 64 4096 0, Call.close 4, Call.mailbox_close 3] ++
        (rpimemmgr_alloc_mailbox 128 4096 0 false (some ⟨false, -1, -1, .nil⟩)
          sample_backend).calls_made).count
        Call.mailbox_open ≤ 1 ↔
      ¬ ((⟨false, 3, 4, .nil⟩ : rpimemmgr_priv).fd_mb = -1 ∧
          (⟨false, -1, -1, .nil⟩ : rpimemmgr_priv).fd_mb = -1)) ∧
    (([Call.alloc_mem_mailbox 3 4 64 4096 0, Call.close 4, Call.mailbox_close 3] ++
        (rpimemmgr_alloc_mailbox 128 4096 0 false (some ⟨false, -1, -1, .nil⟩)
          sample_backend).calls_made).count
        Call.open_dev_mem ≤ 1 ↔
      ¬ (Call.open_dev_mem ∈
            [Call.alloc_mem_mailbox 3 4 64 4096 0, Call.close 4, Call.mailbox_close 3] ∧
          (⟨false, -1, -1, .nil⟩ : rpimemmgr_priv).fd_mem = -1 ∧
          ((⟨false, -1, -1, .nil⟩ : rpimemmgr_priv).fd_mb = -1 →
            sample_backend.mailbox_open ≠ -1))) ∧
    (((0 : Nat), (none : Option Nat)).1 ≠ 0 →
      ([Call.alloc_mem_mailbox 3 4 64 4096 0, Call.close 4, Call.mailbox_close 3] ++
          (rpimemmgr_alloc_mailbox 128 4096 0 false (some ⟨false, -1, -1, .nil⟩)
            sample_backend).calls_made).count
          Call.mailbox_open ≤ 1 ∧
      ([Call.alloc_mem_mailbox 3 4 64 4096 0, Call.close 4, Call.mailbox_close 3] ++
          (rpimemmgr_alloc_mailbox 128 4096 0 false (some ⟨false, -1, -1, .nil⟩)
            sample_backend).calls_made).count
          Call.open_dev_mem ≤ 1) :=
  mailbox_opens_at_most_once 64 4096 0 false 128 4096 0 false
    ⟨false, 3, 4, .nil⟩ ⟨false, -1, -1, .nil⟩ failing_alloc_backend sample_backend
    (0, none) [Call.alloc_mem_mailbox 3 4 64 4096 0, Call.close 4, Call.mailbox_close 3]
    (by decide)

/-- C7 as stated fails: on a fresh manager a mailbox alloc that fails at the
backend allocate closes both resources again, so the next mailbox alloc opens
both a second time: each open is called twice across the two calls. -/
theorem mailbox_reopened_after_failed_alloc :
    rpimemmgr_alloc_mailbox 64 4096 0 false (some fresh) failing_alloc_backend
      = .done (0, none) (some fresh)
          [Call.mailbox_open, Call.open_dev_mem, Call.alloc_mem_mailbox 3 4 64 4096 0,
           Call.close 4, Call.mailbox_close 3] ∧
    rpimemmgr_alloc_mailbox 64 4096 0 false (some fresh) sample_backend
      = .done (8192, none) (some ⟨false, 3, 4, .mk .nil sample_mailbox_elem .nil⟩)
          [Call.mailbox_open, Call.open_dev_mem, Call.alloc_mem_mailbox 3 4 64 4096 0] ∧
    ((rpimemmgr_alloc_mailbox 64 4096 0 false (some fresh) failing_alloc_backend).calls_made ++
      (rpimemmgr_alloc_mailbox 64 4096 0 false (some fresh) sample_backend).calls_made).count
        Call.mailbox_open = 2 ∧
    ((rpimemmgr_alloc_mailbox 64 4096 0 false (some fresh) failing_alloc_backend).calls_made ++
      (rpimemmgr_alloc_mailbox 64 4096 0 false (some fresh) sample_backend).calls_made).count
        Call.open_dev_mem = 2 := by
  decide

/-- C8 fails on the code: `is_vcsm_inited` is tested but never set, so a
second `rpimemmgr_alloc_vcsm` on the same manager, after a first one in which
`vcsm_init` succeeded, calls `vcsm_init` again. -/
theorem vcsm_init_called_again :
    rpimemmgr_alloc_vcsm 4096 4096 0 false (some fresh) sample_backend
      = .done (4096, none) (some ⟨false, -1, -1, .mk .nil sample_vcsm_elem .nil⟩)
          [Call.vcsm_init, Call.alloc_mem_vcsm 4096 4096 0] ∧
    rpimemmgr_alloc_vcsm 4096 4096 0 false
        (some ⟨false, -1, -1, .mk .nil sample_vcsm_elem .nil⟩) second_backend
      = .done (12288, none)
          (some ⟨false, -1, -1, .mk .nil sample_vcsm_elem
            (.mk .nil ⟨MEM_TYPE_VCSM, 4096, 8, 3221237760, 12288⟩ .nil)⟩)
          [Call.vcsm_init, Call.alloc_mem_vcsm 4096 4096 0] := by
  decide

/-- C9 fails on the code: after a `rpimemmgr_alloc_vcsm` in which `vcsm_init`
succeeded, `is_vcsm_inited` is still false, and `rpimemmgr_finalize` releases
the record but never calls `vcsm_exit`. -/
theorem finalize_skips_vcsm_exit :
    rpimemmgr_alloc_vcsm 4096 4096 0 false (some fresh) sample_backend
      = .done (4096, none) (some ⟨false, -1, -1, .mk .nil sample_vcsm_elem .nil⟩)
          [Call.vcsm_init, Call.alloc_mem_vcsm 4096 4096 0] ∧
    rpimemmgr_finalize (some ⟨false, -1, -1, .mk .nil sample_vcsm_elem .nil⟩) sample_backend
      = .done 0 (some ⟨false, -1, -1, .nil⟩) [Call.free_mem_vcsm 7 4096] := by
  decide

/-- C11: freeing a registered address removes its record whether the backend
release succeeds or fails: the call returns what the release returns, the
address is no key of the registry afterwards, every other record is kept
unchanged and in order, and a second free of the address that follows at once
returns the not-found error 1 without any collaborator call. -/
theorem free_removes_record (priv : rpimemmgr_priv) (be : Backend) (ep : mem_elem)
    (ho : Ordered priv.root) (hm : ep ∈ priv.root.toList)
    (hty : ep.type = MEM_TYPE_VCSM ∨ ep.type = MEM_TYPE_MAILBOX) :
    ∃ priv1 calls,
      rpimemmgr_free ep.usraddr (some priv) be
        = .done (release_result be priv.fd_mb ep) (some priv1) calls ∧
      ep.usraddr ∉ priv1.root.keys ∧
      priv1.root.toList = priv.root.toList.filter (fun e => e.usraddr ≠ ep.usraddr) ∧
      ∀ be2, rpimemmgr_free ep.usraddr (some priv1) be2 = .done 1 (some priv1) [] := by
  obtain ⟨root1, hd, hf⟩ := free_registered priv be ep ho hm
  have hres : (free_elem ep priv be).1 = release_result be priv.fd_mb ep := by
    rw [free_elem_found ep priv be root1 hd]
    unfold release_result
    rcases hty with hty | hty
    · rw [if_pos hty, if_pos hty]
    · have hne : ¬ ep.type = MEM_TYPE_VCSM := by rw [hty]; decide
      rw [if_neg hne, if_pos hty, if_neg hne]
  have hnk : ep.usraddr ∉ root1.keys := by
    intro hk
    exact ((tdelete_keys ep priv.root root1 ho hd _).1 hk).2 rfl
  refine ⟨{ priv with root := root1 }, (free_elem ep priv be).2.2, ?_, hnk,
    tdelete_toList ep priv.root root1 ho hd, ?_⟩
  · rw [hf, hres]
  · intro be2
    unfold rpimemmgr_free
    dsimp only
    rw [tfind_none_of_not_mem ⟨0, 0, 0, 0, ep.usraddr⟩ root1 hnk]

theorem free_removes_record_witness :
    ∃ priv1 calls,
      rpimemmgr_free sample_vcsm_elem.usraddr
          (some ⟨false, 3, 4, .mk .nil sample_vcsm_elem (.mk .nil sample_mailbox_elem .nil)⟩)
          failing_release_backend
        = .done (release_result failing_release_backend 3 sample_vcsm_elem)
            (some priv1) calls ∧
      sample_vcsm_elem.usraddr ∉ priv1.root.keys ∧
      priv1.root.toList
        = (node.mk .nil sample_vcsm_elem (.mk .nil sample_mailbox_elem .nil)).toList.filter
            (fun e => e.usraddr ≠ sample_vcsm_elem.usraddr) ∧
      ∀ be2, rpimemmgr_free sample_vcsm_elem.usraddr (some priv1) be2
        = .done 1 (some priv1) [] :=
  free_removes_record
    ⟨false, 3, 4, .mk .nil sample_vcsm_elem (.mk .nil sample_mailbox_elem .nil)⟩
    failing_release_backend sample_vcsm_elem (by decide) (by decide) (by decide)

/-- C14 fails on the code: `rpimemmgr_free` has no `sp == NULL` guard and
dereferences a null handle, whereas `rpimemmgr_init`, `rpimemmgr_finalize`,
`rpimemmgr_alloc_vcsm` and `rpimemmgr_alloc_mailbox` return their error result
on a null handle without any collaborator call. -/
theorem free_null_handle_faults (usraddr size align opt : Nat) (b : Bool) (be : Backend) :
    rpimemmgr_free usraddr none be = .fault ∧
    rpimemmgr_init true be = .done 1 none [] ∧
    rpimemmgr_finalize none be = .done 1 none [] ∧
    rpimemmgr_alloc_vcsm size align opt b none be = .done (0, none) none [] ∧
    rpimemmgr_alloc_mailbox size align opt b none be = .done (0, none) none [] :=
  ⟨rfl, rfl, rfl, rfl, rfl⟩

/-- C18: `mem_elem_compar` is a strict total order on the user address alone:
it returns 0 exactly for equal user addresses, swapping the arguments negates
the result, a negative result is transitive, and the result does not depend on
the type, size, handle or bus address of either record. -/
theorem mem_elem_compar_strict_total_order (a b c : mem_elem) :
    (mem_elem_compar a b = 0 ↔ a.usraddr = b.usraddr) ∧
    mem_elem_compar a b = - mem_elem_compar b a ∧
    (mem_elem_compar a b < 0 → mem_elem_compar b c < 0 → mem_elem_compar a c < 0) ∧
    (∀ t1 s1 h1 ba1 t2 s2 h2 ba2,
      mem_elem_compar ⟨t1, s1, h1, ba1, a.usraddr⟩ ⟨t2, s2, h2, ba2, b.usraddr⟩
        = mem_elem_compar a b) := by
  refine ⟨compar_eq_zero a b, ?_, ?_, ?_⟩
  · unfold mem_elem_compar
    split_ifs <;> first | rfl | omega
  · rw [compar_neg, compar_neg, compar_neg]
    exact fun h1 h2 => lt_trans h1 h2
  · intros
    rfl

/-- C12: when the backend allocate of either strategy succeeds with a user
address that is already a key of the (ordered) registry, the alloc operation
returns `NULL`, makes exactly one release call, that of the just-allocated
memory with the new handle, and leaves the registry as it was, so the record
already stored under that address keeps its type, size, handle and bus
address. -/
theorem duplicate_address_rejected (s : Strategy) (size align opt : Nat) (b : Bool)
    (priv : rpimemmgr_priv) (be : Backend) (ho : Ordered priv.root)
    (hreach : reaches_alloc s priv be)
    (hok : (backend_alloc s size align opt priv be).err = 0)
    (hdup : (backend_alloc s size align opt priv be).usraddr ∈ priv.root.keys) :
    ∃ priv1 calls,
      alloc_by s size align opt b (some priv) be = .done (0, none) (some priv1) calls ∧
      priv1.root = priv.root ∧
      calls.filter Call.is_release =
        [release_call (lazily_opened priv be).fd_mb
          ⟨s.tag, size, (backend_alloc s size align opt priv be).handle,
            (backend_alloc s size align opt priv be).busaddr,
            (backend_alloc s size align opt priv be).usraddr⟩] := by
  cases s with
  | vcsm =>
    simp only [backend_alloc] at hok hdup
    simp only [reaches_alloc] at hreach
    have hreg := register_mem_duplicate MEM_TYPE_VCSM size
      (be.alloc_mem_vcsm size align opt).handle (be.alloc_mem_vcsm size align opt).busaddr
      (be.alloc_mem_vcsm size align opt).usraddr priv be ho hdup
    have h1 : ¬ (priv.is_vcsm_inited = false ∧ be.vcsm_init ≠ 0) := fun h => h.2 (hreach h.1)
    have h2 : ¬ (be.alloc_mem_vcsm size align opt).err ≠ 0 := fun h => h hok
    have h3 : ((1 : Int), priv).1 ≠ 0 := by simp
    refine ⟨priv,
      (if priv.is_vcsm_inited = false then [Call.vcsm_init] else []) ++
        [Call.alloc_mem_vcsm size align opt] ++
        [Call.free_mem_vcsm (be.alloc_mem_vcsm size align opt).handle
          (be.alloc_mem_vcsm size align opt).usraddr], ?_, rfl, ?_⟩
    · simp only [alloc_by]
      unfold rpimemmgr_alloc_vcsm
      dsimp only
      rw [if_neg h1, if_neg h2, hreg, if_pos h3]
    · simp only [backend_alloc, Strategy.tag, release_call, if_true]
      split_ifs <;> simp [Call.is_release]
  | mailbox =>
    simp only [backend_alloc] at hok hdup
    simp only [reaches_alloc] at hreach
    have hreg := register_mem_duplicate MEM_TYPE_MAILBOX size
      (be.alloc_mem_mailbox (lazily_opened priv be).fd_mb (lazily_opened priv be).fd_mem
        size align opt).handle
      (be.alloc_mem_mailbox (lazily_opened priv be).fd_mb (lazily_opened priv be).fd_mem
        size align opt).busaddr
      (be.alloc_mem_mailbox (lazily_opened priv be).fd_mb (lazily_opened priv be).fd_mem
        size align opt).usraddr (lazily_opened priv be) be ho hdup
    have h1 : ¬ (priv.fd_mb = -1 ∧ be.mailbox_open = -1) := fun h => hreach.1 h.1 h.2
    have h2 : ¬ (priv.fd_mem = -1 ∧ be.open_dev_mem = -1) := fun h => hreach.2 h.1 h.2
    have h3 : ¬ (be.alloc_mem_mailbox (lazily_opened priv be).fd_mb
        (lazily_opened priv be).fd_mem size align opt).err ≠ 0 := fun h => h hok
    have h4 : ((1 : Int), lazily_opened priv be).1 ≠ 0 := by simp
    have e1 : (if priv.fd_mb = -1 then { priv with fd_mb := be.mailbox_open } else priv)
        = { priv with fd_mb := (lazily_opened priv be).fd_mb } := by
      unfold lazily_opened; split_ifs <;> rfl
    have e2 : (if priv.fd_mem = -1 then
          ({ is_vcsm_inited := priv.is_vcsm_inited, fd_mb := (lazily_opened priv be).fd_mb,
             fd_mem := be.open_dev_mem, root := priv.root } : rpimemmgr_priv)
        else { priv with fd_mb := (lazily_opened priv be).fd_mb })
        = lazily_opened priv be := by
      unfold lazily_opened; split_ifs <;> rfl
    refine ⟨{ lazily_opened priv be with fd_mem := -1, fd_mb := -1 },
      (if priv.fd_mb = -1 then [Call.mailbox_open] else []) ++
        (if priv.fd_mem = -1 then [Call.open_dev_mem] else []) ++
        [Call.alloc_mem_mailbox (lazily_opened priv be).fd_mb (lazily_opened priv be).fd_mem
          size align opt] ++
        [Call.free_mem_mailbox (lazily_opened priv be).fd_mb size
          (be.alloc_mem_mailbox (lazily_opened priv be).fd_mb (lazily_opened priv be).fd_mem
            size align opt).handle
          (be.alloc_mem_mailbox (lazily_opened priv be).fd_mb (lazily_opened priv be).fd_mem
            size align opt).busaddr
          (be.alloc_mem_mailbox (lazily_opened priv be).fd_mb (lazily_opened priv be).fd_mem
            size align opt).usraddr,
         Call.close (lazily_opened priv be).fd_mem,
         Call.mailbox_close (lazily_opened priv be).fd_mb], ?_, rfl, ?_⟩
    · simp only [alloc_by]
      unfold rpimemmgr_alloc_mailbox
      dsimp only
      rw [if_neg h1, e1]
      dsimp only
      rw [if_neg h2, e2, if_neg h3, hreg, if_pos h4]
    · have hne : ¬ MEM_TYPE_MAILBOX = MEM_TYPE_VCSM := by decide
      simp only [backend_alloc, Strategy.tag, release_call, if_neg hne]
      split_ifs <;> simp [Call.is_release]

theorem duplicate_address_rejected_witness :
    ∃ priv1 calls,
      alloc_by .mailbox 64 4096 0 true
          (some ⟨false, -1, -1, .mk .nil sample_mailbox_elem .nil⟩) second_backend_dup
        = .done (0, none) (some priv1) calls ∧
      priv1.root = .mk .nil sample_mailbox_elem .nil ∧
      calls.filter Call.is_release =
        [release_call
          (lazily_opened ⟨false, -1, -1, .mk .nil sample_mailbox_elem .nil⟩
            second_backend_dup).fd_mb
          ⟨Strategy.mailbox.tag, 64,
            (backend_alloc .mailbox 64 4096 0
              ⟨false, -1, -1, .mk .nil sample_mailbox_elem .nil⟩ second_backend_dup).handle,
            (backend_alloc .mailbox 64 4096 0
              ⟨false, -1, -1, .mk .nil sample_mailbox_elem .nil⟩ second_backend_dup).busaddr,
            (backend_alloc .mailbox 64 4096 0
              ⟨false, -1, -1, .mk .nil sample_mailbox_elem .nil⟩
              second_backend_dup).usraddr⟩] :=
  duplicate_address_rejected .mailbox 64 4096 0 true
    ⟨false, -1, -1, .mk .nil sample_mailbox_elem .nil⟩ second_backend_dup
    (by decide) (by decide) (by decide) (by decide)

/-- C13: in a state reached from `rpimemmgr_init` the mapping resource is unset
only when the control resource is unset too.  So when a mailbox alloc gets to
open the mapping resource and that open fails, the control resource was opened
by this same call: the call returns `NULL`, closes the control descriptor it
has just opened and leaves the state as it was before the call.  A control
resource that was open before the call is never closed on this path. -/
theorem mapping_open_failure_closes_own_control (be0 : Backend)
    (steps : List (Op × Backend)) (priv : rpimemmgr_priv)
    (size align flags : Nat) (b : Bool) (be : Backend)
    (hrun : (run steps ((rpimemmgr_init false be0).sp_after, [])).1 = some priv)
    (hmb : priv.fd_mb = -1 → be.mailbox_open ≠ -1)
    (hmem : priv.fd_mem = -1) (hopen : be.open_dev_mem = -1) :
    priv.fd_mb = -1 ∧
    rpimemmgr_alloc_mailbox size align flags b (some priv) be
      = .done (0, none) (some priv)
          [Call.mailbox_open, Call.open_dev_mem, Call.mailbox_close be.mailbox_open] := by
  have hfd : priv.fd_mb = -1 := (reachable_fds be0 steps priv hrun).2 hmem
  refine ⟨hfd, ?_⟩
  have hmo : ¬ be.mailbox_open = -1 := hmb hfd
  obtain ⟨iv, mb, mem, root⟩ := priv
  simp only at hfd hmem
  subst hfd hmem
  unfold rpimemmgr_alloc_mailbox
  simp only [hmo, and_false, hopen, and_self, if_true, if_false, List.nil_append,
    List.append_nil, List.singleton_append, List.cons_append]

theorem mapping_open_failure_closes_own_control_witness :
    (⟨false, -1, -1, .mk .nil sample_vcsm_elem .nil⟩ : rpimemmgr_priv).fd_mb = -1 ∧
    rpimemmgr_alloc_mailbox 64 4096 0 true
        (some ⟨false, -1, -1, .mk .nil sample_vcsm_elem .nil⟩) failing_mapping_backend
      = .done (0, none) (some ⟨false, -1, -1, .mk .nil sample_vcsm_elem .nil⟩)
          [Call.mailbox_open, Call.open_dev_mem,
           Call.mailbox_close failing_mapping_backend.mailbox_open] :=
  mapping_open_failure_closes_own_control sample_backend
    [(Op.alloc .vcsm 4096 4096 0 true, sample_backend)]
    ⟨false, -1, -1, .mk .nil sample_vcsm_elem .nil⟩ 64 4096 0 true failing_mapping_backend
    (by decide) (fun _ => by decide) (by decide) (by decide)

/-- C19: in every state reached from `rpimemmgr_init` through alloc and free
calls, whatever the collaborators answer, the control handle `fd_mb` is unset
(-1) if and only if the mapping handle `fd_mem` is unset (-1). -/
theorem handles_unset_together (be0 : Backend) (steps : List (Op × Backend))
    (priv : rpimemmgr_priv)
    (hrun : (run steps ((rpimemmgr_init false be0).sp_after, [])).1 = some priv) :
    priv.fd_mb = -1 ↔ priv.fd_mem = -1 :=
  reachable_fds be0 steps priv hrun

theorem handles_unset_together_witness :
    (⟨false, 3, 4, .mk .nil sample_vcsm_elem (.mk .nil sample_mailbox_elem .nil)⟩ :
        rpimemmgr_priv).fd_mb = -1 ↔
    (⟨false, 3, 4, .mk .nil sample_vcsm_elem (.mk .nil sample_mailbox_elem .nil)⟩ :
        rpimemmgr_priv).fd_mem = -1 :=
  handles_unset_together sample_backend
    [(Op.alloc .vcsm 4096 4096 0 true, sample_backend),
     (Op.alloc .mailbox 64 4096 0 true, failing_mapping_backend),
     (Op.alloc .mailbox 64 4096 0 true, sample_backend)]
    ⟨false, 3, 4, .mk .nil sample_vcsm_elem (.mk .nil sample_mailbox_elem .nil)⟩ (by decide)

/-- C20, as amended: take a state reached from `rpimemmgr_init` through alloc
and free calls, and a point of that run at which the control handle was open
or the registry held no mailbox record (the start is such a point, and so is
the state right after every successful mailbox alloc).  If no call since that
point has closed the control resource, then, if the registry holds a mailbox
record, the control handle `fd_mb` is open. -/
theorem mailbox_records_have_open_control (be0 : Backend) (pre post : List (Op × Backend))
    (priv0 priv : rpimemmgr_priv) (ep : mem_elem)
    (hpre : (run pre ((rpimemmgr_init false be0).sp_after, [])).1 = some priv0)
    (hq0 : priv0.fd_mb ≠ -1 ∨ ∀ e ∈ priv0.root.toList, e.type ≠ MEM_TYPE_MAILBOX)
    (hpost : (run post (some priv0, [])).1 = some priv)
    (hnc : ∀ fd, Call.mailbox_close fd ∉ run_calls post (some priv0))
    (hm : ep ∈ priv.root.toList) (hty : ep.type = MEM_TYPE_MAILBOX) :
    priv.fd_mb ≠ -1 := by
  have ho := (reachable_tags be0 pre priv0 hpre).1
  refine run_control_open post priv0 [] priv ho ?_ hnc hpost ⟨ep, hm, hty⟩
  rintro ⟨e, he, hte⟩
  rcases hq0 with h | h
  · exact h
  · exact absurd hte (h e he)

theorem mailbox_records_have_open_control_witness :
    (⟨false, 3, 4, .mk .nil sample_mailbox_elem .nil⟩ : rpimemmgr_priv).fd_mb ≠ -1 :=
  mailbox_records_have_open_control sample_backend
    [(Op.alloc .mailbox 64 4096 0 true, failing_alloc_backend)]
    [(Op.alloc .mailbox 64 4096 0 true, sample_backend),
     (Op.free 4096, failing_release_backend)]
    ⟨false, -1, -1, .nil⟩
    ⟨false, 3, 4, .mk .nil sample_mailbox_elem .nil⟩ sample_mailbox_elem
    (by decide)
    (Or.inr (by decide))
    (by decide)
    (fun fd h => by
      have e : run_calls
          [(Op.alloc .mailbox 64 4096 0 true, sample_backend),
           (Op.free 4096, failing_release_backend)]
          (some ⟨false, -1, -1, .nil⟩)
          = [Call.mailbox_open, Call.open_dev_mem,
             Call.alloc_mem_mailbox 3 4 64 4096 0] := by decide
      rw [e] at h
      simp at h)
    (by decide) (by decide)

/-- C20 as stated fails: from a fresh manager, a successful mailbox alloc
registers a mailbox record; a following mailbox alloc that fails at the backend
allocate closes and unsets the control handle although that record is still
registered, and the free of the record then passes -1 to the mailbox
release. -/
theorem mailbox_record_with_closed_control :
    (run [(Op.alloc .mailbox 64 4096 0 true, sample_backend),
          (Op.alloc .mailbox 64 4096 0 true, failing_alloc_backend)]
        ((rpimemmgr_init false sample_backend).sp_after, [])).1
      = some ⟨false, -1, -1, .mk .nil sample_mailbox_elem .nil⟩ ∧
    sample_mailbox_elem.type = MEM_TYPE_MAILBOX ∧
    rpimemmgr_free 8192 (some ⟨false, -1, -1, .mk .nil sample_mailbox_elem .nil⟩)
        sample_backend
      = .done 0 (some ⟨false, -1, -1, .nil⟩)
          [Call.free_mem_mailbox (-1) 64 9 1073741824 8192] := by
  decide

/-- C15: on a manager whose records carry valid tags, `rpimemmgr_finalize`
goes through every cleanup step whatever the earlier steps returned: it
releases every record of the registry once and leaves the registry empty, then
calls `vcsm_exit` if the subsystem flag is set, then closes the control
resource if it is open, then closes the mapping resource if it is open; and
its result is non-zero if and only if some release or some close failed. -/
theorem finalize_attempts_every_step (priv : rpimemmgr_priv) (be : Backend)
    (ht : TagsValid priv.root) :
    ∃ ret sweep,
      rpimemmgr_finalize (some priv) be
        = .done ret (some { priv with root := .nil })
            (sweep ++ (if priv.is_vcsm_inited then [Call.vcsm_exit] else []) ++
              (if priv.fd_mb ≠ -1 then [Call.mailbox_close priv.fd_mb] else []) ++
              (if priv.fd_mem ≠ -1 then [Call.close priv.fd_mem] else [])) ∧
      sweep.Perm (priv.root.toList.map (release_call priv.fd_mb)) ∧
      (ret ≠ 0 ↔
        (∃ ep ∈ priv.root.toList, release_result be priv.fd_mb ep ≠ 0) ∨
        (priv.fd_mb ≠ -1 ∧ be.mailbox_close priv.fd_mb ≠ 0) ∨
        (priv.fd_mem ≠ -1 ∧ be.close priv.fd_mem ≠ 0)) := by
  have hstate := free_all_elems_root priv be
  have hres := free_all_elems_loop_result priv.root.size 0 priv be (le_refl _) ht
  have hcalls := free_all_elems_loop_calls priv.root.size 0 priv be (le_refl _) ht
  have hsw : (free_all_elems priv be).1 ≠ 0 ↔
      ∃ ep ∈ priv.root.toList, release_result be priv.fd_mb ep ≠ 0 := by
    unfold free_all_elems
    rw [hres]
    simp
  refine ⟨(if priv.fd_mem ≠ -1 then
        (if be.close priv.fd_mem ≠ 0 then be.close priv.fd_mem
          else (if priv.fd_mb ≠ -1 then
            (if be.mailbox_close priv.fd_mb ≠ 0 then be.mailbox_close priv.fd_mb
              else (if (free_all_elems priv be).1 ≠ 0 then (free_all_elems priv be).1 else 0))
            else (if (free_all_elems priv be).1 ≠ 0 then (free_all_elems priv be).1 else 0)))
      else (if priv.fd_mb ≠ -1 then
            (if be.mailbox_close priv.fd_mb ≠ 0 then be.mailbox_close priv.fd_mb
              else (if (free_all_elems priv be).1 ≠ 0 then (free_all_elems priv be).1 else 0))
            else (if (free_all_elems priv be).1 ≠ 0 then (free_all_elems priv be).1 else 0))),
    (free_all_elems priv be).2.2, ?_, hcalls, ?_⟩
  · unfold rpimemmgr_finalize
    dsimp only
    rw [hstate]
  · rw [← hsw]
    by_cases h1 : (free_all_elems priv be).1 = 0 <;>
    by_cases h2 : priv.fd_mb = -1 <;>
    by_cases h3 : be.mailbox_close priv.fd_mb = 0 <;>
    by_cases h4 : priv.fd_mem = -1 <;>
    by_cases h5 : be.close priv.fd_mem = 0 <;>
    simp [h1, h2, h3, h4, h5]

theorem finalize_attempts_every_step_witness :
    ∃ ret sweep,
      rpimemmgr_finalize
          (some ⟨false, 3, 4, .mk .nil sample_vcsm_elem (.mk .nil sample_mailbox_elem .nil)⟩)
          failing_close_backend
        = .done ret
            (some { (⟨false, 3, 4, .mk .nil sample_vcsm_elem
                (.mk .nil sample_mailbox_elem .nil)⟩ : rpimemmgr_priv) with root := .nil })
            (sweep ++ (if (false : Bool) then [Call.vcsm_exit] else []) ++
              (if (3 : Int) ≠ -1 then [Call.mailbox_close 3] else []) ++
              (if (4 : Int) ≠ -1 then [Call.close 4] else [])) ∧
      sweep.Perm
        ((node.mk .nil sample_vcsm_elem (.mk .nil sample_mailbox_elem .nil)).toList.map
          (release_call 3)) ∧
      (ret ≠ 0 ↔
        (∃ ep ∈ (node.mk .nil sample_vcsm_elem (.mk .nil sample_mailbox_elem .nil)).toList,
          release_result failing_close_backend 3 ep ≠ 0) ∨
        ((3 : Int) ≠ -1 ∧ failing_close_backend.mailbox_close 3 ≠ 0) ∨
        ((4 : Int) ≠ -1 ∧ failing_close_backend.close 4 ≠ 0)) :=
  finalize_attempts_every_step
    ⟨false, 3, 4, .mk .nil sample_vcsm_elem (.mk .nil sample_mailbox_elem .nil)⟩
    failing_close_backend (by decide)

/-- C16: the sweep of `rpimemmgr_finalize` terminates on every registry.  Each
iteration unlinks exactly one record, so after `fuel` iterations `fuel` records
fewer are left, and with `N` records the loop stops after exactly `N`
iterations on an empty registry.  When the records carry valid tags the sweep
calls the backend release exactly once for each record, `N` calls in all,
whether or not releases fail. -/
theorem sweep_releases_each_record_once (priv : rpimemmgr_priv) (be : Backend) :
    (∀ fuel e, (free_all_elems_loop fuel e priv be).2.1.root.size = priv.root.size - fuel) ∧
    (free_all_elems priv be).2.1.root = .nil ∧
    (TagsValid priv.root →
      (free_all_elems priv be).2.2.Perm (priv.root.toList.map (release_call priv.fd_mb)) ∧
      (free_all_elems priv be).2.2.length = priv.root.size) := by
  refine ⟨fun fuel e => free_all_elems_loop_size fuel e priv be, ?_, ?_⟩
  · rw [free_all_elems_root]
  · intro ht
    have hcalls := free_all_elems_loop_calls priv.root.size 0 priv be (le_refl _) ht
    refine ⟨hcalls, ?_⟩
    have hlen : priv.root.toList.length = priv.root.size := by
      generalize priv.root = t
      induction t with
      | nil => rfl
      | mk l k r ihl ihr => simp only [node.toList, node.size, List.length_append,
          List.length_cons, ihl, ihr]; omega
    unfold free_all_elems
    rw [hcalls.length_eq, List.length_map, hlen]

/-- C17: in every state reached from `rpimemmgr_init` through alloc and free
calls, whatever the collaborators answer, every record of the registry has a
tag that is not zero and is exactly `MEM_TYPE_VCSM` or `MEM_TYPE_MAILBOX`, so
`free_elem` never meets an unknown tag; and that tag is the tag of the
strategy of the alloc call that registered the record and returned its
address, as noted call by call: the address is noted, and it is noted with
that strategy only. -/
theorem registered_tags_match_strategy (be0 : Backend) (steps : List (Op × Backend))
    (h0 : be0.malloc = true) :
    ∃ priv held,
      run_strategies steps ((rpimemmgr_init false be0).sp_after, []) = (some priv, held) ∧
      ∀ ep ∈ priv.root.toList,
        ep.type ≠ 0 ∧ (ep.type = MEM_TYPE_VCSM ∨ ep.type = MEM_TYPE_MAILBOX) ∧
        (∃ s, (ep.usraddr, s) ∈ held ∧ ep.type = s.tag) ∧
        ∀ s, (ep.usraddr, s) ∈ held → ep.type = s.tag := by
  have hinit : (rpimemmgr_init false be0).sp_after = some ⟨false, -1, -1, .nil⟩ := by
    simp [rpimemmgr_init, h0, Outcome.sp_after]
  rw [hinit]
  obtain ⟨p1, held1, hr, ho1, h1, h2⟩ :=
    run_strategies_invariant steps ⟨false, -1, -1, .nil⟩ []
      (by simp [Ordered, node.keys, node.toList]) (by simp [node.toList]) (by simp)
  refine ⟨p1, held1, hr, ?_⟩
  intro ep hep
  obtain ⟨s0, hs0, hty0⟩ := h1 ep hep
  refine ⟨?_, ?_, ⟨s0, hs0, hty0⟩, ?_⟩
  · rw [hty0]; exact (tag_valid s0).1
  · rw [hty0]; exact (tag_valid s0).2
  · intro s hs
    obtain ⟨ep1, hep1, hu, hty⟩ := h2 _ s hs
    rw [← ordered_unique _ ho1 ep1 ep hep1 hep hu]
    exact hty

theorem registered_tags_match_strategy_witness :
    ∃ priv held,
      run_strategies
          [(Op.alloc .vcsm 4096 4096 0 true, sample_backend),
           (Op.alloc .mailbox 64 4096 0 false, sample_backend),
           (Op.alloc .vcsm 4096 4096 0 true, null_success_backend),
           (Op.alloc .vcsm 4096 4096 0 true, second_backend),
           (Op.free 4096, failing_release_backend)]
          ((rpimemmgr_init false sample_backend).sp_after, []) = (some priv, held) ∧
      ∀ ep ∈ priv.root.toList,
        ep.type ≠ 0 ∧ (ep.type = MEM_TYPE_VCSM ∨ ep.type = MEM_TYPE_MAILBOX) ∧
        (∃ s, (ep.usraddr, s) ∈ held ∧ ep.type = s.tag) ∧
        ∀ s, (ep.usraddr, s) ∈ held → ep.type = s.tag :=
  registered_tags_match_strategy sample_backend _ rfl

end Rpimemmgr
